import Mathlib

/-! # Modularity of a graph partition: a shallow embedding of `modularity.cpp`

The program reads an edge list into a global `Graph`, reads a cover into a map of
`Cluster`s and a node-to-label map, and evaluates Newman's modularity.

Modelling decisions.

* `std::unordered_map<int, V>` is an association list `List (Int × V)` whose keys are
  pairwise distinct (`UMap.WF`); a new key is appended at the end.  The iteration order
  of the real container is unspecified; the only loop that iterates over a map is the
  final summation, whose exact value does not depend on the order.
* `std::unordered_set<int>` is a duplicate-free `List Int`; `insert` is `List.insert`.
* A text stream is represented by the sequence of values the extraction operators
  deliver: a list of integer pairs for `fin >> a >> b`, and for `getline` a list of
  lines, each line being the list of integers `iss >> node` delivers.
* `exit(1)` and the exception thrown by `unordered_map::at` are the `Except` errors.
* The global `Graph G` is threaded explicitly: `Graph.degree` returns the graph it leaves
  behind, because `adj_list[node]` creates an entry for a node that has none.
* The counters (`n`, `m`, `degree`, `num_edges`) are natural numbers and `double` is `ℚ`
  (exact arithmetic).  A natural number is the value of the C++ counter as long as it is
  below `2^32` (`unsigned int`), and the value a getter returns as `int` as long as it is
  below `2^31`.  `n`, `m`, `num_edges` and the degree of a node are at most twice the
  number of edge records.  The aggregate degree of a cluster grows with every listing of a
  node in the cover, so it can leave the range on small graphs: the statements about a
  cluster map that is not tied to a cover listing each node once carry the bound they need.
  A division by `m = 0` has the value 0 in `ℚ` where `double` gives an infinity or a NaN;
  the statements about values assume `m > 0` or show that no summand is evaluated.
* Argument passing is explicit where a statement depends on it: the cluster maps that are
  alive form a list indexed by address (`Heap`), the body of `modularity` writes the object
  at the address of its parameter, and the call copy-constructs that parameter.
* The command line is the list `argv` of strings, and the files are a function from a path
  to what the file delivers (nothing when the file does not open); timing is left out.
-/

namespace Modularity

/-! ## Containers -/

/-- Association-list model of `std::unordered_map<int, V>`. -/
abbrev UMap (V : Type) := List (Int × V)

/-- The keys of the map, in insertion order. -/
def UMap.keys {V : Type} (m : UMap V) : List Int := m.map Prod.fst

/-- Representation invariant of a map: no key occurs twice. -/
def UMap.WF {V : Type} (m : UMap V) : Prop := (UMap.keys m).Nodup

instance UMap.decidableWF {V : Type} (m : UMap V) : Decidable (UMap.WF m) :=
  inferInstanceAs (Decidable (UMap.keys m).Nodup)

/-- Lookup that does not modify the map (`find`). -/
def UMap.find? {V : Type} : UMap V → Int → Option V
  | [], _ => none
  | (k1, v) :: t, k => if k1 = k then some v else UMap.find? t k

/-- The access `m[k]` followed by an in-place update `f` of the referenced value; an absent
key is first inserted with the default-constructed value `d`. -/
def UMap.upd {V : Type} (d : V) (f : V → V) : UMap V → Int → UMap V
  | [], k => [(k, f d)]
  | (k1, v) :: t, k => if k1 = k then (k1, f v) :: t else (k1, v) :: UMap.upd d f t k

/-- The assignment `m[k] = v`. -/
def UMap.set {V : Type} (m : UMap V) (k : Int) (v : V) : UMap V :=
  UMap.upd v (fun _ => v) m k

/-- Number of entries, `m.size()`. -/
def UMap.size {V : Type} (m : UMap V) : Nat := m.length

/-- The ways a run can stop early. -/
inductive Failure where
  /-- The cover check of `read_cover` printed "Incorrect cover! Terminating!" and exited. -/
  | incorrect_cover
  /-- The call `community.at(k)` found no key `k` (`std::out_of_range`). -/
  | key_not_found
  deriving DecidableEq, Repr

/-- The checked access `m.at(k)`. -/
def UMap.at {V : Type} (m : UMap V) (k : Int) : Except Failure V :=
  match UMap.find? m k with
  | some v => .ok v
  | none => .error Failure.key_not_found

/-! ## Graph -/

/-- The class `Graph`. -/
structure Graph where
  /-- Container for the adjacency list. -/
  adj_list : UMap (List Int)
  /-- Container for the edge list. -/
  edges : List (Int × Int)
  /-- Number of nodes, fixed by the constructor. -/
  n : Nat
  /-- Number of edge records, fixed by the constructor. -/
  m : Nat
  deriving DecidableEq, Repr

/-- Body of the reading loop of `Graph::Graph(string)` for one pair `u v`. -/
def Graph.read_pair (acc : UMap (List Int) × List (Int × Int)) (e : Int × Int) :
    UMap (List Int) × List (Int × Int) :=
  let adj1 := UMap.upd [] (fun s => List.insert e.2 s) acc.1 e.1
  let adj2 := UMap.upd [] (fun s => List.insert e.1 s) adj1 e.2
  (adj2, acc.2 ++ [e])

/-- The reading loop of `Graph::Graph(string)`. -/
def Graph.read_pairs (pairs : List (Int × Int)) : UMap (List Int) × List (Int × Int) :=
  pairs.foldl Graph.read_pair ([], [])

/-- The constructor `Graph::Graph(string)` applied to a file that opens and delivers
`pairs`. -/
def Graph.ctor (pairs : List (Int × Int)) : Graph :=
  let r := Graph.read_pairs pairs
  { adj_list := r.1, edges := r.2, n := UMap.size r.1, m := r.2.length }

/-- The function `read_edgelist`. -/
def read_edgelist (pairs : List (Int × Int)) : Graph := Graph.ctor pairs

/-- The neighbour set an adjacency map stores for `node` (empty when there is no entry). -/
def nbrs_of (adj : UMap (List Int)) (node : Int) : List Int :=
  (UMap.find? adj node).getD []

/-- The neighbour set stored for `node` (empty when there is no entry), read without
touching the map. -/
def Graph.nbrs (G : Graph) (node : Int) : List Int := nbrs_of G.adj_list node

/-- The node ids that occur as an endpoint of some pair, with repetitions. -/
def endpoints (pairs : List (Int × Int)) : List Int :=
  pairs.map Prod.fst ++ pairs.map Prod.snd

/-- The method `Graph::degree`: the size of `adj_list[node]`, and the graph after the access
(which inserts an empty set for an unseen node). -/
def Graph.degree (G : Graph) (node : Int) : Nat × Graph :=
  (((UMap.find? G.adj_list node).getD []).length,
   { G with adj_list := UMap.upd [] id G.adj_list node })

/-- The method `Graph::neighbors`. -/
def Graph.neighbors (G : Graph) (node : Int) : List Int × Graph :=
  ((UMap.find? G.adj_list node).getD [],
   { G with adj_list := UMap.upd [] id G.adj_list node })

/-- The method `Graph::get_edges`. -/
def Graph.get_edges (G : Graph) : List (Int × Int) := G.edges

/-- The method `Graph::size`. -/
def Graph.size (G : Graph) : Nat := G.m

/-- The method `Graph::order`. -/
def Graph.order (G : Graph) : Nat := G.n

/-! ## Cluster -/

/-- The class `Cluster`. -/
structure Cluster where
  /-- Members of the cluster. -/
  members : List Int
  /-- Accumulated degree of the members. -/
  degree : Nat
  /-- Number of intra-cluster edges. -/
  num_edges : Nat
  deriving DecidableEq, Repr

/-- The constructor `Cluster::Cluster()`. -/
def Cluster.new : Cluster := { members := [], degree := 0, num_edges := 0 }

/-- The method `Cluster::add_member`, with the global graph passed in and out.  The sum is
the value of the `unsigned int` counter as long as it is below `2^32`. -/
def Cluster.add_member (c : Cluster) (node : Int) (G : Graph) : Cluster × Graph :=
  let r := Graph.degree G node
  ({ c with members := List.insert node c.members, degree := c.degree + r.1 }, r.2)

/-- The method `Cluster::get_degree`.  The `unsigned int` counter is returned as `int`: the
cast is the value returned as long as the counter is below `2^31`. -/
def Cluster.get_degree (c : Cluster) : Int := (c.degree : Int)

/-- The method `Cluster::get_members`. -/
def Cluster.get_members (c : Cluster) : List Int := c.members

/-- The method `Cluster::increase_edge_count`. -/
def Cluster.increase_edge_count (c : Cluster) : Cluster :=
  { c with num_edges := c.num_edges + 1 }

/-- The method `Cluster::get_edge_count`.  The `unsigned int` counter is returned as `int`:
the cast is the value returned as long as the counter is below `2^31`. -/
def Cluster.get_edge_count (c : Cluster) : Int := (c.num_edges : Int)

/-! ## Cover -/

/-- The variables `read_cover` works on: `clusters`, `community` and the global `G`. -/
structure CoverState where
  /-- Map from community label to cluster. -/
  clusters : UMap Cluster
  /-- Map from node id to community label. -/
  community : UMap Int
  /-- The global graph. -/
  G : Graph
  deriving DecidableEq, Repr

/-- The two statements `clusters[label].add_member(node); community[node] = label;`.  The
graph left behind is the one the call `G.degree(node)` inside `add_member` leaves, whatever
the cluster. -/
def assign (st : CoverState) (node label : Int) : CoverState :=
  { clusters := UMap.upd Cluster.new (fun c => (Cluster.add_member c node st.G).1)
      st.clusters label,
    community := UMap.set st.community node label,
    G := (Graph.degree st.G node).2 }

/-- The loop `while (fin >> node >> comm_label)` of the standard format. -/
def read_standard (pairs : List (Int × Int)) (st : CoverState) : CoverState :=
  pairs.foldl (fun s p => assign s p.1 p.2) st

/-- The loop `while (iss >> node)` over one line of the alternate format, with its `break`
at the sentinel `-1`. -/
def read_line (i : Int) : List Int → CoverState → CoverState
  | [], st => st
  | node :: rest, st => if node = -1 then st else read_line i rest (assign st node i)

/-- The loop `while (getline(fin, line))` of the alternate format, started with line
counter `i`. -/
def read_lines : List (List Int) → Int → CoverState → CoverState
  | [], _, st => st
  | line :: rest, i, st => read_lines rest (i + 1) (read_line i line st)

/-- What the cover file delivers, together with the flag `alternate_cover` that selects how
it is read. -/
inductive CoverInput where
  /-- Flag `alternate_cover` unset: the pairs `node comm_label`. -/
  | standard (pairs : List (Int × Int))
  /-- Flag `alternate_cover` set: the lines, each a list of integers. -/
  | alternate (lines : List (List Int))
  deriving DecidableEq, Repr

/-- The parsing part of `read_cover` (both branches of `if (! alternate_cover)`). -/
def parse_cover (G : Graph) : CoverInput → CoverState
  | .standard pairs => read_standard pairs { clusters := [], community := [], G := G }
  | .alternate lines => read_lines lines 0 { clusters := [], community := [], G := G }

/-- The function `read_cover` for a cover file that opens: parsing followed by the check
`community.size() != G.order()`. -/
def read_cover (G : Graph) (cover : CoverInput) : Except Failure CoverState :=
  let st := parse_cover G cover
  if UMap.size st.community ≠ Graph.order st.G then .error Failure.incorrect_cover
  else .ok st

/-! ## Modularity -/

/-- Body of the loop over the edges in `modularity`. -/
def count_edge (community : UMap Int) (clusters : UMap Cluster) (edge : Int × Int) :
    Except Failure (UMap Cluster) :=
  match UMap.at community edge.1 with
  | .error f => .error f
  | .ok u_comm =>
    match UMap.at community edge.2 with
    | .error f => .error f
    | .ok v_comm =>
      if u_comm = v_comm then
        .ok (UMap.upd Cluster.new Cluster.increase_edge_count clusters u_comm)
      else .ok clusters

/-- The loop `for (pair<int, int> edge: edges)` of `modularity`. -/
def count_edges (community : UMap Int) : List (Int × Int) → UMap Cluster →
    Except Failure (UMap Cluster)
  | [], clusters => .ok clusters
  | edge :: rest, clusters =>
    match count_edge community clusters edge with
    | .error f => .error f
    | .ok clusters1 => count_edges community rest clusters1

/-- The summand of the second loop of `modularity` for one cluster. -/
def term (m : Int) (cluster : Cluster) : ℚ :=
  (Cluster.get_edge_count cluster : ℚ) / (m : ℚ)
    - ((Cluster.get_degree cluster : ℚ) / ((2 * m : Int) : ℚ)) ^ 2

/-- The loop `for (pair<int, Cluster> thing: clusters)` of `modularity`. -/
def sum_terms (m : Int) (clusters : UMap Cluster) : ℚ :=
  clusters.foldl (fun acc thing => acc + term m thing.2) 0

/-- The function `modularity`, reading the global graph `G`. -/
def modularity (G : Graph) (clusters : UMap Cluster) (community : UMap Int) :
    Except Failure ℚ :=
  match count_edges community (Graph.get_edges G) clusters with
  | .error f => .error f
  | .ok counted => .ok (sum_terms (Graph.size G : Int) counted)

/-- The part of `main` from `read_edgelist` to the call of `modularity`. -/
def run (pairs : List (Int × Int)) (cover : CoverInput) : Except Failure ℚ :=
  match read_cover (read_edgelist pairs) cover with
  | .error f => .error f
  | .ok st => modularity st.G st.clusters st.community

/-! ## Vocabulary of the specification -/

/-- The integers of a line that precede the first occurrence of `-1` (all of them when
there is none). -/
def before_sentinel (line : List Int) : List Int :=
  line.takeWhile (fun node => decide (node ≠ -1))

/-- The pairs `(node, label)` that one line with label `i` of the alternate format assigns:
the integers that precede the first `-1`. -/
def line_pairs (i : Int) (line : List Int) : List (Int × Int) :=
  (before_sentinel line).map (fun node => (node, i))

/-- The pairs `(node, label)` the lines of the alternate format assign, the first line
having label `i`. -/
def lines_pairs : List (List Int) → Int → List (Int × Int)
  | [], _ => []
  | line :: rest, i => line_pairs i line ++ lines_pairs rest (i + 1)

/-- The sequence of assignments `(node, label)` a cover input makes, in input order. -/
def assigned : CoverInput → List (Int × Int)
  | .standard pairs => pairs
  | .alternate lines => lines_pairs lines 0

/-- The node ids a cover input assigns a label to, with repetitions. -/
def assigned_nodes (cover : CoverInput) : List Int := (assigned cover).map Prod.fst

/-- The label of the last assignment to `x` in a sequence of assignments. -/
def last_label : List (Int × Int) → Int → Option Int
  | [], _ => none
  | p :: rest, x =>
    match last_label rest x with
    | some l => some l
    | none => if p.1 = x then some p.2 else none

/-- The members of the cluster stored under `label` (none when there is no such cluster). -/
def members_of (clusters : UMap Cluster) (label : Int) : List Int :=
  match UMap.find? clusters label with
  | some c => c.members
  | none => []

/-- The starting state of `read_cover`: two empty maps. -/
def CoverState.init (G : Graph) : CoverState := { clusters := [], community := [], G := G }

/-- Number of edge records both of whose endpoints carry the label `c`. -/
def intra_count (community : UMap Int) (edges : List (Int × Int)) (c : Int) : Nat :=
  edges.countP (fun e =>
    decide (UMap.find? community e.1 = some c ∧ UMap.find? community e.2 = some c))

/-- Adds `f label` to the edge count of a map entry. -/
def bump (f : Int → Nat) (p : Int × Cluster) : Int × Cluster :=
  (p.1, { p.2 with num_edges := p.2.num_edges + f p.1 })

/-- The modularity formula of the specification, summed over the entries of a cluster map:
`intra_c / m - (deg_c / (2m))^2`. -/
def modularity_formula (G : Graph) (clusters : UMap Cluster) (community : UMap Int) : ℚ :=
  (clusters.map (fun p =>
    (intra_count community G.edges p.1 : ℚ) / (G.m : ℚ)
      - ((p.2.degree : ℚ) / (2 * (G.m : ℚ))) ^ 2)).sum

/-- The edge list of the worked scenario of the specification. -/
def scenario_edges : List (Int × Int) := [(1, 2), (2, 3), (3, 1), (4, 5)]

/-- The standard-format cover of the worked scenario: nodes 1, 2, 3 carry label `A`, nodes 4
and 5 carry label `B`. -/
def scenario_cover (A B : Int) : CoverInput :=
  .standard [(1, A), (2, A), (3, A), (4, B), (5, B)]

/-- The edge records form a simple graph: no self-loop, and no pair repeated in either
orientation. -/
def simple_edges (pairs : List (Int × Int)) : Prop :=
  (∀ e ∈ pairs, e.1 ≠ e.2) ∧ pairs.Pairwise (fun a b => a ≠ b ∧ a ≠ (b.2, b.1))

instance simple_edges.decidable (pairs : List (Int × Int)) : Decidable (simple_edges pairs) :=
  inferInstanceAs (Decidable ((∀ e ∈ pairs, e.1 ≠ e.2) ∧
    pairs.Pairwise (fun a b => a ≠ b ∧ a ≠ (b.2, b.1))))

/-- Sum of the aggregate degrees of the clusters of a map. -/
def total_degree (clusters : UMap Cluster) : Nat :=
  (clusters.map (fun p => p.2.degree)).sum

/-- Sum of the intra-cluster edge counts of the clusters of a map. -/
def total_edges (clusters : UMap Cluster) : Nat :=
  (clusters.map (fun p => p.2.num_edges)).sum

/-- Number of edge records whose two endpoints carry the same community label. -/
def same_label_count (community : UMap Int) (edges : List (Int × Int)) : Nat :=
  edges.countP (fun e => decide (UMap.find? community e.1 = UMap.find? community e.2))

/-- The aggregate degree of the cluster stored under `label` (0 when there is none). -/
def degree_of (clusters : UMap Cluster) (label : Int) : Nat :=
  match UMap.find? clusters label with
  | some c => c.degree
  | none => 0

/-- Sum of the graph degrees of the nodes of the assignments that carry `label`, one
summand per assignment. -/
def label_degree (G : Graph) (ps : List (Int × Int)) (label : Int) : Nat :=
  ((ps.filter (fun p => decide (p.2 = label))).map (fun p => (Graph.nbrs G p.1).length)).sum

/-- Sum of `Graph.degree(member)` over a member set. -/
def members_degree (G : Graph) (members : List Int) : Nat :=
  (members.map (fun x => (Graph.degree G x).1)).sum

/-- A sequence of assignments without the first occurrence of the assignment `p`. -/
def remove_first (p : Int × Int) : List (Int × Int) → List (Int × Int)
  | [] => []
  | q :: t => if q = p then t else q :: remove_first p t

/-- The cluster that holds the single node `x`: what `add_member(x)` makes of a fresh
cluster. -/
def singleton_cluster (G : Graph) (x : Int) : Cluster :=
  { members := [x], degree := (Graph.nbrs G x).length, num_edges := 0 }

/-- The value the specification gives for singleton communities: minus the sum over the
nodes `i` of `(deg_i / (2m))^2`, with `deg_i` the result of `Graph.degree(i)`. -/
def singleton_value (G : Graph) (nodes : List Int) : ℚ :=
  - (nodes.map (fun i => (((Graph.degree G i).1 : ℚ) / (2 * (G.m : ℚ))) ^ 2)).sum

/-! ## Command line -/

/-- The two global flags `verbose` and `alternate_cover`. -/
structure Flags where
  /-- Show timing information. -/
  verbose : Bool
  /-- Accept the alternate form of cover. -/
  alternate_cover : Bool
  deriving DecidableEq, Repr

/-- Body of the loop of `parse_args` for the argument `argv[i]`: the test
`argv[i][0] == '-'` and the `switch` on `argv[i][1]`. -/
def parse_arg (flags : Flags) (arg : String) : Flags :=
  match arg.data with
  | '-' :: 'v' :: _ => { flags with verbose := true }
  | '-' :: 'a' :: _ => { flags with alternate_cover := true }
  | _ => flags

/-- The function `parse_args`: the loop runs over `argv[1]`, ..., `argv[argc - 1]`, starting
from the initial values `false` of both globals. -/
def parse_args (argv : List String) : Flags :=
  (argv.drop 1).foldl parse_arg { verbose := false, alternate_cover := false }

/-- What a file that opens delivers to each of the two ways of reading it. -/
structure FileContent where
  /-- The pairs `fin >> a >> b` delivers. -/
  pairs : List (Int × Int)
  /-- The lines `getline` delivers, each as the integers `iss >> node` delivers. -/
  lines : List (List Int)
  deriving DecidableEq, Repr

/-- The ways `main` can end. -/
inductive Exit where
  /-- The message "File ... doesnt exist" and `exit(1)`. -/
  | file_missing (path : String)
  /-- The exit of `read_cover` or the exception of `modularity`. -/
  | failure (f : Failure)
  /-- The program reads `argv[1]` or `argv[2]` and there is no such argument. -/
  | no_argument
  /-- The program prints `n`, `m`, the number of clusters and the modularity, the timing
  lines too when `verbose` is set, and returns 0. -/
  | success (n m clusters : Nat) (mod : ℚ) (verbose : Bool)
  deriving DecidableEq, Repr

/-- The part of `main` that follows the opening of the two files. -/
def report (flags : Flags) (edge_file cover_file : FileContent) : Exit :=
  let G := read_edgelist edge_file.pairs
  let cover := if flags.alternate_cover then CoverInput.alternate cover_file.lines
    else CoverInput.standard cover_file.pairs
  match read_cover G cover with
  | .error f => .failure f
  | .ok st =>
    match modularity st.G st.clusters st.community with
    | .error f => .failure f
    | .ok mod => .success (Graph.order G) (Graph.size G) (UMap.size st.clusters) mod
        flags.verbose

/-- The function `main` on a file system `fs`: `parse_args(argc, argv)`, then
`read_edgelist(argv[1])`, then `read_cover(argv[2])`, then `modularity`. -/
def main (fs : String → Option FileContent) (argv : List String) : Exit :=
  let flags := parse_args argv
  match argv.get? 1 with
  | none => .no_argument
  | some edge_path =>
    match fs edge_path with
    | none => .file_missing edge_path
    | some edge_file =>
      match argv.get? 2 with
      | none => .no_argument
      | some cover_path =>
        match fs cover_path with
        | none => .file_missing cover_path
        | some cover_file => report flags edge_file cover_file

/-- The argument is a flag argument whose letter is `c`: it starts with `-` followed by
`c`. -/
def has_flag (c : Char) (arg : String) : Bool :=
  match arg.data with
  | '-' :: x :: _ => decide (x = c)
  | _ => false

/-- The arguments after the program name that do not start with `-`. -/
def non_flag_args (argv : List String) : List String :=
  (argv.drop 1).filter (fun arg => decide (arg.data.head? ≠ some '-'))

/-- A file system that holds the two files `edges.txt` (the edge record `1 2`) and
`cover.txt` (the lines `1 0` and `2 0`) and nothing else. -/
def two_files (path : String) : Option FileContent :=
  if path = "edges.txt" then some { pairs := [(1, 2)], lines := [[1, 2]] }
  else if path = "cover.txt" then some { pairs := [(1, 0), (2, 0)], lines := [[1, 0], [2, 0]] }
  else none

/-! ## The call of `modularity` -/

/-- The objects of type `unordered_map<int, Cluster>` that are alive, by address. -/
abbrev Heap := List (UMap Cluster)

/-- Body of the loop over the edges in `modularity`, with the parameter `clusters` being the
object at address `r`: the statement `clusters[u_comm].increase_edge_count()` writes that
object. -/
def count_edge_at (community : UMap Int) (r : Nat) (heap : Heap) (edge : Int × Int) :
    Except Failure Heap :=
  match count_edge community (heap.getD r []) edge with
  | .error f => .error f
  | .ok clusters1 => .ok (heap.set r clusters1)

/-- The loop `for (pair<int, int> edge: edges)` of `modularity` on the object at address
`r`. -/
def count_edges_at (community : UMap Int) (r : Nat) : List (Int × Int) → Heap →
    Except Failure Heap
  | [], heap => .ok heap
  | edge :: rest, heap =>
    match count_edge_at community r heap edge with
    | .error f => .error f
    | .ok heap1 => count_edges_at community r rest heap1

/-- The body of `modularity` with its parameter `clusters` being the object at address `r`:
the value returned and the objects it leaves behind. -/
def modularity_at (G : Graph) (community : UMap Int) (r : Nat) (heap : Heap) :
    Except Failure (ℚ × Heap) :=
  match count_edges_at community r (Graph.get_edges G) heap with
  | .error f => .error f
  | .ok heap1 => .ok (sum_terms (Graph.size G : Int) (heap1.getD r []), heap1)

/-- The call `modularity(clusters, community)` whose argument `clusters` is the object at
address `a`.  The parameter is declared without `&`: it is a new object, copy-constructed
from the argument at the first free address, and destroyed when the function returns. -/
def call_modularity (G : Graph) (community : UMap Int) (a : Nat) (heap : Heap) :
    Except Failure (ℚ × Heap) :=
  match modularity_at G community heap.length (heap ++ [heap.getD a []]) with
  | .error f => .error f
  | .ok r => .ok (r.1, r.2.take heap.length)

/-! ## Facts about the containers -/

theorem UMap.find?_upd {V : Type} (d : V) (f : V → V) (m : UMap V) (k x : Int) :
    UMap.find? (UMap.upd d f m k) x =
      if x = k then some (f ((UMap.find? m k).getD d)) else UMap.find? m x := by
  induction m with
  | nil =>
    by_cases h : x = k
    · subst h; simp [UMap.upd, UMap.find?]
    · have h2 : ¬ k = x := fun e => h e.symm
      simp [UMap.upd, UMap.find?, h, h2]
  | cons hd t ih =>
    obtain ⟨k1, v⟩ := hd
    by_cases h1 : k1 = k
    · subst h1
      by_cases h : x = k1
      · subst h; simp [UMap.upd, UMap.find?]
      · have h2 : ¬ k1 = x := fun e => h e.symm
        simp [UMap.upd, UMap.find?, h, h2]
    · by_cases h : x = k
      · subst h
        simp [UMap.upd, UMap.find?, h1, ih]
      · by_cases h3 : k1 = x
        · subst h3
          simp [UMap.upd, UMap.find?, h1]
        · simp [UMap.upd, UMap.find?, h1, h3, ih, h]

theorem UMap.keys_upd {V : Type} (d : V) (f : V → V) (m : UMap V) (k : Int) :
    UMap.keys (UMap.upd d f m k) =
      if k ∈ UMap.keys m then UMap.keys m else UMap.keys m ++ [k] := by
  induction m with
  | nil => simp [UMap.upd, UMap.keys]
  | cons hd t ih =>
    obtain ⟨k1, v⟩ := hd
    by_cases h1 : k1 = k
    · subst h1; simp [UMap.upd, UMap.keys]
    · have h2 : ¬ k = k1 := fun e => h1 e.symm
      simp only [UMap.keys] at ih
      by_cases h3 : k ∈ List.map Prod.fst t
      · simp [UMap.upd, UMap.keys, h1, h2, ih, h3]
      · simp [UMap.upd, UMap.keys, h1, h2, ih, h3]

theorem UMap.mem_keys_upd {V : Type} (d : V) (f : V → V) (m : UMap V) (k x : Int) :
    x ∈ UMap.keys (UMap.upd d f m k) ↔ x ∈ UMap.keys m ∨ x = k := by
  rw [UMap.keys_upd]
  by_cases h : k ∈ UMap.keys m
  · simp only [h, if_true]
    constructor
    · exact fun hx => Or.inl hx
    · rintro (hx | hx)
      · exact hx
      · subst hx; exact h
  · simp [h]

theorem UMap.WF_upd {V : Type} (d : V) (f : V → V) (m : UMap V) (k : Int)
    (h : UMap.WF m) : UMap.WF (UMap.upd d f m k) := by
  unfold UMap.WF at *
  rw [UMap.keys_upd]
  by_cases hk : k ∈ UMap.keys m
  · simpa [hk] using h
  · simp only [hk, if_false]
    refine List.Nodup.append h (List.nodup_singleton k) ?_
    intro a ha hb
    simp only [List.mem_singleton] at hb
    subst hb
    exact hk ha

theorem UMap.find?_isSome_iff {V : Type} (m : UMap V) (k : Int) :
    (UMap.find? m k).isSome ↔ k ∈ UMap.keys m := by
  induction m with
  | nil => simp [UMap.find?, UMap.keys]
  | cons hd t ih =>
    obtain ⟨k1, v⟩ := hd
    by_cases h : k1 = k
    · subst h; simp [UMap.find?, UMap.keys]
    · have h2 : ¬ k = k1 := fun e => h e.symm
      simp only [UMap.keys] at ih
      simp [UMap.find?, UMap.keys, h, h2, ih]

theorem UMap.find?_eq_none_iff {V : Type} (m : UMap V) (k : Int) :
    UMap.find? m k = none ↔ k ∉ UMap.keys m := by
  rw [← UMap.find?_isSome_iff]
  cases UMap.find? m k <;> simp

/-- The size of a well-formed map is the number of distinct keys. -/
theorem UMap.size_eq_card {V : Type} (m : UMap V) (h : UMap.WF m) :
    UMap.size m = (UMap.keys m).toFinset.card := by
  rw [List.toFinset_card_of_nodup h]
  simp [UMap.size, UMap.keys]

/-! ## Facts about the graph constructor -/

theorem mem_nbrs_of_read_pair (acc : UMap (List Int) × List (Int × Int)) (e : Int × Int)
    (x y : Int) :
    y ∈ nbrs_of (Graph.read_pair acc e).1 x ↔
      y ∈ nbrs_of acc.1 x ∨ (x = e.1 ∧ y = e.2) ∨ (x = e.2 ∧ y = e.1) := by
  obtain ⟨a, b⟩ := e
  simp only [nbrs_of, Graph.read_pair, UMap.find?_upd]
  by_cases h2 : x = b
  · subst h2
    by_cases h1 : x = a
    · subst h1
      simp only [if_true, Option.getD_some, List.mem_insert_iff]
      tauto
    · simp only [h1, if_true, if_false, Option.getD_some, List.mem_insert_iff]
      tauto
  · by_cases h1 : x = a
    · subst h1
      simp only [h2, if_true, if_false, Option.getD_some, List.mem_insert_iff]
      tauto
    · simp only [h2, h1, if_false]
      tauto

theorem nodup_nbrs_of_read_pair (acc : UMap (List Int) × List (Int × Int)) (e : Int × Int)
    (h : ∀ x, (nbrs_of acc.1 x).Nodup) (x : Int) :
    (nbrs_of (Graph.read_pair acc e).1 x).Nodup := by
  obtain ⟨a, b⟩ := e
  have hx := h x
  have h1 := h a
  have h2 := h b
  simp only [nbrs_of] at hx h1 h2
  simp only [nbrs_of, Graph.read_pair, UMap.find?_upd]
  by_cases c2 : x = b
  · subst c2
    by_cases c1 : x = a
    · subst c1
      simp only [if_true, Option.getD_some]
      exact List.Nodup.insert (List.Nodup.insert h1)
    · simp only [c1, if_true, if_false, Option.getD_some]
      exact List.Nodup.insert h2
  · by_cases c1 : x = a
    · subst c1
      simp only [c2, if_true, if_false, Option.getD_some]
      exact List.Nodup.insert h1
    · simpa only [c2, c1, if_false] using hx

theorem mem_keys_read_pair (acc : UMap (List Int) × List (Int × Int)) (e : Int × Int)
    (x : Int) :
    x ∈ UMap.keys (Graph.read_pair acc e).1 ↔ x ∈ UMap.keys acc.1 ∨ x = e.1 ∨ x = e.2 := by
  simp only [Graph.read_pair, UMap.mem_keys_upd]
  tauto

theorem WF_read_pair (acc : UMap (List Int) × List (Int × Int)) (e : Int × Int)
    (h : UMap.WF acc.1) : UMap.WF (Graph.read_pair acc e).1 := by
  simp only [Graph.read_pair]
  exact UMap.WF_upd _ _ _ _ (UMap.WF_upd _ _ _ _ h)

theorem mem_nbrs_of_foldl (es : List (Int × Int)) :
    ∀ (acc : UMap (List Int) × List (Int × Int)) (x y : Int),
      y ∈ nbrs_of (es.foldl Graph.read_pair acc).1 x ↔
        y ∈ nbrs_of acc.1 x ∨ (x, y) ∈ es ∨ (y, x) ∈ es := by
  induction es with
  | nil => intro acc x y; simp
  | cons e t ih =>
    intro acc x y
    obtain ⟨a, b⟩ := e
    simp only [List.foldl_cons, ih, mem_nbrs_of_read_pair, List.mem_cons, Prod.mk.injEq]
    tauto

theorem nodup_nbrs_of_foldl (es : List (Int × Int)) :
    ∀ (acc : UMap (List Int) × List (Int × Int)), (∀ x, (nbrs_of acc.1 x).Nodup) →
      ∀ x, (nbrs_of (es.foldl Graph.read_pair acc).1 x).Nodup := by
  induction es with
  | nil => intro acc h x; simpa using h x
  | cons e t ih =>
    intro acc h x
    simp only [List.foldl_cons]
    exact ih _ (nodup_nbrs_of_read_pair acc e h) x

theorem mem_keys_foldl (es : List (Int × Int)) :
    ∀ (acc : UMap (List Int) × List (Int × Int)) (x : Int),
      x ∈ UMap.keys (es.foldl Graph.read_pair acc).1 ↔
        x ∈ UMap.keys acc.1 ∨ x ∈ endpoints es := by
  induction es with
  | nil => intro acc x; simp [endpoints]
  | cons e t ih =>
    intro acc x
    simp only [List.foldl_cons, ih, mem_keys_read_pair]
    simp only [endpoints, List.map_cons, List.mem_append, List.mem_cons]
    tauto

theorem WF_foldl (es : List (Int × Int)) :
    ∀ (acc : UMap (List Int) × List (Int × Int)), UMap.WF acc.1 →
      UMap.WF (es.foldl Graph.read_pair acc).1 := by
  induction es with
  | nil => intro acc h; simpa using h
  | cons e t ih =>
    intro acc h
    simp only [List.foldl_cons]
    exact ih _ (WF_read_pair acc e h)

theorem edges_foldl (es : List (Int × Int)) :
    ∀ (acc : UMap (List Int) × List (Int × Int)),
      (es.foldl Graph.read_pair acc).2 = acc.2 ++ es := by
  induction es with
  | nil => intro acc; simp
  | cons e t ih =>
    intro acc
    simp only [List.foldl_cons, ih, Graph.read_pair, List.append_assoc, List.singleton_append]

theorem Graph.ctor_edges (pairs : List (Int × Int)) : (Graph.ctor pairs).edges = pairs := by
  simp [Graph.ctor, Graph.read_pairs, edges_foldl]

theorem Graph.ctor_m (pairs : List (Int × Int)) : (Graph.ctor pairs).m = pairs.length := by
  simp [Graph.ctor, Graph.read_pairs, edges_foldl]

theorem Graph.ctor_WF (pairs : List (Int × Int)) : UMap.WF (Graph.ctor pairs).adj_list :=
  WF_foldl pairs ([], []) (by simp [UMap.WF, UMap.keys])

theorem Graph.ctor_mem_keys (pairs : List (Int × Int)) (x : Int) :
    x ∈ UMap.keys (Graph.ctor pairs).adj_list ↔ x ∈ endpoints pairs := by
  have h := mem_keys_foldl pairs ([], []) x
  simpa [UMap.keys] using h

theorem Graph.ctor_n (pairs : List (Int × Int)) :
    (Graph.ctor pairs).n = (endpoints pairs).toFinset.card := by
  have h := UMap.size_eq_card _ (Graph.ctor_WF pairs)
  have hk : (UMap.keys (Graph.ctor pairs).adj_list).toFinset = (endpoints pairs).toFinset := by
    ext x
    simp only [List.mem_toFinset]
    exact Graph.ctor_mem_keys pairs x
  rw [hk] at h
  exact h

theorem Graph.ctor_mem_nbrs (pairs : List (Int × Int)) (u v : Int) :
    v ∈ Graph.nbrs (Graph.ctor pairs) u ↔ (u, v) ∈ pairs ∨ (v, u) ∈ pairs := by
  have h := mem_nbrs_of_foldl pairs ([], []) u v
  simpa [nbrs_of, UMap.find?] using h

theorem Graph.ctor_nodup_nbrs (pairs : List (Int × Int)) (u : Int) :
    (Graph.nbrs (Graph.ctor pairs) u).Nodup :=
  nodup_nbrs_of_foldl pairs ([], []) (by simp [nbrs_of, UMap.find?]) u

/-! ## Claims about the graph -/

/-- C8: the adjacency mapping built by the constructor is symmetric, and `v` is a neighbour
of `u` exactly when `(u, v)` or `(v, u)` is one of the pairs read. -/
theorem C8_adjacency_symmetric (pairs : List (Int × Int)) (u v : Int) :
    (v ∈ Graph.nbrs (Graph.ctor pairs) u ↔ u ∈ Graph.nbrs (Graph.ctor pairs) v) ∧
    (v ∈ Graph.nbrs (Graph.ctor pairs) u ↔ ((u, v) ∈ pairs ∨ (v, u) ∈ pairs)) := by
  refine ⟨?_, Graph.ctor_mem_nbrs pairs u v⟩
  rw [Graph.ctor_mem_nbrs, Graph.ctor_mem_nbrs]
  exact Or.comm

/-- C9: `order()` is the number of distinct node ids occurring as an endpoint, `size()` is
the number of pairs read (nothing is deduplicated), and `get_edges()` is the input
sequence. -/
theorem C9_order_size_edges (pairs : List (Int × Int)) :
    Graph.order (Graph.ctor pairs) = (endpoints pairs).dedup.length ∧
    Graph.size (Graph.ctor pairs) = pairs.length ∧
    Graph.get_edges (Graph.ctor pairs) = pairs := by
  refine ⟨?_, Graph.ctor_m pairs, Graph.ctor_edges pairs⟩
  rw [← List.card_toFinset]
  exact Graph.ctor_n pairs

/-! ## Facts about reading a cover -/

theorem nbrs_of_upd_id (adj : UMap (List Int)) (x y : Int) :
    nbrs_of (UMap.upd [] id adj x) y = nbrs_of adj y := by
  simp only [nbrs_of, UMap.find?_upd]
  by_cases h : y = x
  · subst h; simp
  · simp [h]

theorem assign_G_n (st : CoverState) (x l : Int) : (assign st x l).G.n = st.G.n := rfl

theorem assign_G_m (st : CoverState) (x l : Int) : (assign st x l).G.m = st.G.m := rfl

theorem assign_G_edges (st : CoverState) (x l : Int) :
    (assign st x l).G.edges = st.G.edges := rfl

theorem assign_G_nbrs (st : CoverState) (x l y : Int) :
    Graph.nbrs (assign st x l).G y = Graph.nbrs st.G y := by
  simp only [Graph.nbrs, assign, Graph.degree]
  exact nbrs_of_upd_id _ _ _

theorem read_standard_nil (st : CoverState) : read_standard [] st = st := rfl

theorem read_standard_cons (p : Int × Int) (ps : List (Int × Int)) (st : CoverState) :
    read_standard (p :: ps) st = read_standard ps (assign st p.1 p.2) := rfl

theorem read_standard_append (ps qs : List (Int × Int)) (st : CoverState) :
    read_standard (ps ++ qs) st = read_standard qs (read_standard ps st) := by
  simp [read_standard, List.foldl_append]

theorem read_line_eq (i : Int) (line : List Int) :
    ∀ st : CoverState, read_line i line st = read_standard (line_pairs i line) st := by
  induction line with
  | nil => intro st; rfl
  | cons node rest ih =>
    intro st
    by_cases h : node = -1
    · subst h; simp [read_line, line_pairs, before_sentinel, read_standard]
    · have ih2 := ih (assign st node i)
      simp only [line_pairs, before_sentinel] at ih2
      simp [read_line, line_pairs, before_sentinel, h, ih2, read_standard_cons]

theorem read_lines_eq (lines : List (List Int)) :
    ∀ (i : Int) (st : CoverState),
      read_lines lines i st = read_standard (lines_pairs lines i) st := by
  induction lines with
  | nil => intro i st; rfl
  | cons line rest ih =>
    intro i st
    simp only [read_lines, lines_pairs, read_standard_append, read_line_eq, ih]

/-- Both formats run the same sequence of assignments from the empty maps. -/
theorem parse_cover_eq (G : Graph) (cover : CoverInput) :
    parse_cover G cover = read_standard (assigned cover) (CoverState.init G) := by
  cases cover with
  | standard pairs => rfl
  | alternate lines => simp [parse_cover, assigned, read_lines_eq, CoverState.init]

theorem read_standard_G (ps : List (Int × Int)) :
    ∀ st : CoverState,
      (read_standard ps st).G.n = st.G.n ∧ (read_standard ps st).G.m = st.G.m ∧
      (read_standard ps st).G.edges = st.G.edges ∧
      ∀ y, Graph.nbrs (read_standard ps st).G y = Graph.nbrs st.G y := by
  induction ps with
  | nil => intro st; simp [read_standard_nil]
  | cons p t ih =>
    intro st
    obtain ⟨h1, h2, h3, h4⟩ := ih (assign st p.1 p.2)
    rw [read_standard_cons]
    refine ⟨h1, h2, h3, ?_⟩
    intro y
    rw [h4 y, assign_G_nbrs]

theorem read_standard_community_keys (ps : List (Int × Int)) :
    ∀ (st : CoverState) (x : Int),
      x ∈ UMap.keys (read_standard ps st).community ↔
        x ∈ UMap.keys st.community ∨ x ∈ ps.map Prod.fst := by
  induction ps with
  | nil => intro st x; simp [read_standard_nil]
  | cons p t ih =>
    intro st x
    rw [read_standard_cons, ih]
    simp only [assign, UMap.set, UMap.mem_keys_upd, List.map_cons, List.mem_cons]
    tauto

theorem read_standard_community_WF (ps : List (Int × Int)) :
    ∀ st : CoverState, UMap.WF st.community → UMap.WF (read_standard ps st).community := by
  induction ps with
  | nil => intro st h; simpa [read_standard_nil] using h
  | cons p t ih =>
    intro st h
    rw [read_standard_cons]
    exact ih _ (UMap.WF_upd _ _ _ _ h)

theorem read_standard_clusters_keys (ps : List (Int × Int)) :
    ∀ (st : CoverState) (l : Int),
      l ∈ UMap.keys (read_standard ps st).clusters ↔
        l ∈ UMap.keys st.clusters ∨ l ∈ ps.map Prod.snd := by
  induction ps with
  | nil => intro st x; simp [read_standard_nil]
  | cons p t ih =>
    intro st x
    rw [read_standard_cons, ih]
    simp only [assign, UMap.mem_keys_upd, List.map_cons, List.mem_cons]
    tauto

theorem read_standard_clusters_WF (ps : List (Int × Int)) :
    ∀ st : CoverState, UMap.WF st.clusters → UMap.WF (read_standard ps st).clusters := by
  induction ps with
  | nil => intro st h; simpa [read_standard_nil] using h
  | cons p t ih =>
    intro st h
    rw [read_standard_cons]
    exact ih _ (UMap.WF_upd _ _ _ _ h)

theorem read_standard_community_find (ps : List (Int × Int)) :
    ∀ (st : CoverState) (x : Int),
      UMap.find? (read_standard ps st).community x =
        match last_label ps x with
        | some l => some l
        | none => UMap.find? st.community x := by
  induction ps with
  | nil => intro st x; simp [read_standard_nil, last_label]
  | cons p t ih =>
    intro st x
    rw [read_standard_cons, ih]
    simp only [last_label]
    cases h : last_label t x with
    | some l => rfl
    | none =>
      simp only [assign, UMap.set, UMap.find?_upd]
      by_cases hx : x = p.1
      · subst hx; simp
      · have hx2 : ¬ p.1 = x := fun e => hx e.symm
        simp [hx, hx2]

theorem parse_cover_community_WF (G : Graph) (cover : CoverInput) :
    UMap.WF (parse_cover G cover).community := by
  rw [parse_cover_eq]
  exact read_standard_community_WF _ _ (by simp [CoverState.init, UMap.WF, UMap.keys])

theorem parse_cover_clusters_WF (G : Graph) (cover : CoverInput) :
    UMap.WF (parse_cover G cover).clusters := by
  rw [parse_cover_eq]
  exact read_standard_clusters_WF _ _ (by simp [CoverState.init, UMap.WF, UMap.keys])

theorem parse_cover_community_keys (G : Graph) (cover : CoverInput) (x : Int) :
    x ∈ UMap.keys (parse_cover G cover).community ↔ x ∈ assigned_nodes cover := by
  rw [parse_cover_eq, read_standard_community_keys]
  simp [CoverState.init, UMap.keys, assigned_nodes]

theorem parse_cover_G (G : Graph) (cover : CoverInput) :
    (parse_cover G cover).G.n = G.n ∧ (parse_cover G cover).G.m = G.m ∧
    (parse_cover G cover).G.edges = G.edges ∧
    ∀ y, Graph.nbrs (parse_cover G cover).G y = Graph.nbrs G y := by
  rw [parse_cover_eq]
  exact read_standard_G _ _

/-- The size of the community map is the number of distinct node ids assigned a label. -/
theorem parse_cover_community_size (G : Graph) (cover : CoverInput) :
    UMap.size (parse_cover G cover).community = (assigned_nodes cover).dedup.length := by
  rw [UMap.size_eq_card _ (parse_cover_community_WF G cover), ← List.card_toFinset]
  congr 1
  ext x
  simp only [List.mem_toFinset]
  exact parse_cover_community_keys G cover x

theorem read_cover_ok (G : Graph) (cover : CoverInput) (st : CoverState)
    (h : read_cover G cover = .ok st) :
    st = parse_cover G cover ∧ (assigned_nodes cover).dedup.length = G.n := by
  unfold read_cover at h
  simp only [] at h
  split at h
  · exact absurd h (by simp)
  · rename_i hsz
    simp only [ne_eq, not_not, Graph.order, (parse_cover_G G cover).1,
      parse_cover_community_size] at hsz
    simp only [Except.ok.injEq] at h
    exact ⟨h.symm, hsz⟩

theorem read_cover_eq (G : Graph) (cover : CoverInput) :
    read_cover G cover =
      if (assigned_nodes cover).dedup.length ≠ G.n then .error Failure.incorrect_cover
      else .ok (parse_cover G cover) := by
  simp only [read_cover, Graph.order, (parse_cover_G G cover).1, parse_cover_community_size]

/-- An accepted cover that only mentions nodes of the graph mentions all of them. -/
theorem accepted_nodes_eq (pairs : List (Int × Int)) (cover : CoverInput)
    (hlen : (assigned_nodes cover).dedup.length = (Graph.ctor pairs).n)
    (hsub : ∀ x ∈ assigned_nodes cover, x ∈ endpoints pairs) :
    (assigned_nodes cover).toFinset = (endpoints pairs).toFinset := by
  apply Finset.eq_of_subset_of_card_le
  · intro x hx
    simp only [List.mem_toFinset] at hx ⊢
    exact hsub x hx
  · rw [List.card_toFinset (assigned_nodes cover), hlen, Graph.ctor_n]

theorem count_edges_ok (community : UMap Int) (es : List (Int × Int)) :
    (∀ e ∈ es, e.1 ∈ UMap.keys community ∧ e.2 ∈ UMap.keys community) →
      ∀ clusters : UMap Cluster, ∃ counted, count_edges community es clusters = .ok counted := by
  induction es with
  | nil => intro _ clusters; exact ⟨clusters, rfl⟩
  | cons e t ih =>
    intro h clusters
    have he := h e (List.mem_cons_self e t)
    have h1 := (UMap.find?_isSome_iff community e.1).mpr he.1
    have h2 := (UMap.find?_isSome_iff community e.2).mpr he.2
    obtain ⟨a, ha⟩ := Option.isSome_iff_exists.mp h1
    obtain ⟨b, hb⟩ := Option.isSome_iff_exists.mp h2
    have ht := ih (fun e1 h1 => h e1 (List.mem_cons_of_mem e h1))
    by_cases hab : a = b
    · simp only [count_edges, count_edge, UMap.at, ha, hb, hab, if_true]
      exact ht _
    · simp only [count_edges, count_edge, UMap.at, ha, hb, hab, if_false]
      exact ht _

/-! ## Claims about the cover check -/

/-- C3: `read_cover` stops with the "incorrect cover" error exactly when the number of
distinct node ids assigned a label differs from the order of the graph, and otherwise
returns the two maps it has built; a cover whose assigned nodes are the nodes of the graph
except one is rejected. -/
theorem C3_incorrect_cover_iff (pairs : List (Int × Int)) (cover : CoverInput) :
    (read_cover (Graph.ctor pairs) cover = .error Failure.incorrect_cover ↔
      (assigned_nodes cover).dedup.length ≠ Graph.order (Graph.ctor pairs)) ∧
    ((assigned_nodes cover).dedup.length = Graph.order (Graph.ctor pairs) →
      read_cover (Graph.ctor pairs) cover = .ok (parse_cover (Graph.ctor pairs) cover)) ∧
    (∀ x, x ∈ endpoints pairs →
      (∀ y, y ∈ assigned_nodes cover ↔ (y ∈ endpoints pairs ∧ y ≠ x)) →
      read_cover (Graph.ctor pairs) cover = .error Failure.incorrect_cover) := by
  have key : ∀ c : Prop, ∀ [Decidable c],
      ((if c then (Except.error Failure.incorrect_cover : Except Failure CoverState)
        else .ok (parse_cover (Graph.ctor pairs) cover)) = .error Failure.incorrect_cover) ↔ c := by
    intro c _
    by_cases hc : c <;> simp [hc]
  refine ⟨?_, ?_, ?_⟩
  · rw [read_cover_eq]
    exact key _
  · intro h
    rw [read_cover_eq]
    simp [Graph.order] at h
    simp [h]
  · intro x hx hy
    rw [read_cover_eq]
    refine (key _).mpr ?_
    rw [Graph.ctor_n, ← List.card_toFinset]
    have he : (assigned_nodes cover).toFinset = (endpoints pairs).toFinset.erase x := by
      ext y
      simp only [List.mem_toFinset, Finset.mem_erase, hy]
      tauto
    have hmem : x ∈ (endpoints pairs).toFinset := List.mem_toFinset.mpr hx
    have hpos : 0 < (endpoints pairs).toFinset.card := Finset.card_pos.mpr ⟨x, hmem⟩
    rw [he, Finset.card_erase_of_mem hmem]
    omega

theorem C3_incorrect_cover_iff_witness :
    read_cover (Graph.ctor [(1, 2), (2, 3)]) (.standard [(1, 0), (2, 0)]) =
      .error Failure.incorrect_cover :=
  (C3_incorrect_cover_iff [(1, 2), (2, 3)] (.standard [(1, 0), (2, 0)])).2.2 3
    (by decide)
    (by
      intro y
      simp only [assigned_nodes, assigned, endpoints, List.map_cons, List.map_nil,
        List.cons_append, List.nil_append, List.mem_cons, List.mem_nil_iff, or_false]
      omega)

/-- C4 as stated fails: a cover over the node ids 3 and 4 is accepted for the graph with
the single edge `1 2`, and its key set is not the node set of the graph. -/
theorem C4_counterexample :
    ∃ st, read_cover (Graph.ctor [(1, 2)]) (.standard [(3, 0), (4, 0)]) = .ok st ∧
      ¬ (∀ x, x ∈ UMap.keys st.community ↔ x ∈ endpoints [(1, 2)]) := by
  refine ⟨_, rfl, ?_⟩
  intro h
  have h3 := (h 3).mp (by decide)
  revert h3
  decide

/-- C4, amended: for an accepted cover the community map has as many keys as the graph has
node ids, and its key set is the node set of the graph as soon as every key is a node id
of the graph. -/
theorem C4_keys_card (pairs : List (Int × Int)) (cover : CoverInput) (st : CoverState)
    (h : read_cover (Graph.ctor pairs) cover = .ok st) :
    (UMap.keys st.community).toFinset.card = (endpoints pairs).toFinset.card ∧
    ((∀ x ∈ UMap.keys st.community, x ∈ endpoints pairs) →
      ∀ x, x ∈ UMap.keys st.community ↔ x ∈ endpoints pairs) := by
  obtain ⟨hst, hlen⟩ := read_cover_ok _ _ _ h
  subst hst
  have hk : (UMap.keys (parse_cover (Graph.ctor pairs) cover).community).toFinset =
      (assigned_nodes cover).toFinset := by
    ext x
    simp only [List.mem_toFinset]
    exact parse_cover_community_keys _ _ x
  refine ⟨?_, ?_⟩
  · rw [hk, List.card_toFinset, hlen, Graph.ctor_n]
  · intro hsub x
    have hsub2 : ∀ x ∈ assigned_nodes cover, x ∈ endpoints pairs := fun y hy =>
      hsub y ((parse_cover_community_keys _ _ y).mpr hy)
    have he := accepted_nodes_eq pairs cover hlen hsub2
    rw [parse_cover_community_keys, ← List.mem_toFinset, he, List.mem_toFinset]

theorem C4_keys_card_witness :
    (UMap.keys (parse_cover (Graph.ctor [(1, 2)]) (.standard [(2, 5), (1, 5)])).community
      ).toFinset.card = (endpoints [(1, 2)]).toFinset.card ∧
    ((∀ x ∈ UMap.keys (parse_cover (Graph.ctor [(1, 2)]) (.standard [(2, 5), (1, 5)])).community,
        x ∈ endpoints [(1, 2)]) →
      ∀ x, x ∈ UMap.keys (parse_cover (Graph.ctor [(1, 2)]) (.standard [(2, 5), (1, 5)])).community
        ↔ x ∈ endpoints [(1, 2)]) :=
  C4_keys_card [(1, 2)] (.standard [(2, 5), (1, 5)]) _ rfl

/-- C5 as stated fails: the alternate cover with the single line `7 8` is accepted for the
graph with the single edge `1 2`, and the modularity pass stops at `community.at(1)`. -/
theorem C5_counterexample :
    ∃ st, read_cover (Graph.ctor [(1, 2)]) (.alternate [[7, 8]]) = .ok st ∧
      UMap.at st.community 1 = .error Failure.key_not_found ∧
      modularity st.G st.clusters st.community = .error Failure.key_not_found :=
  ⟨_, rfl, rfl, rfl⟩

/-- C5, amended: for an accepted cover that assigns labels only to node ids present in the
graph, both lookups succeed for every edge record and `modularity` returns a value. -/
theorem C5_lookups_succeed (pairs : List (Int × Int)) (cover : CoverInput) (st : CoverState)
    (h : read_cover (Graph.ctor pairs) cover = .ok st)
    (hsub : ∀ x ∈ assigned_nodes cover, x ∈ endpoints pairs) :
    (∀ e ∈ Graph.get_edges st.G,
      (∃ a, UMap.at st.community e.1 = .ok a) ∧ (∃ b, UMap.at st.community e.2 = .ok b)) ∧
    ∃ q, modularity st.G st.clusters st.community = .ok q := by
  obtain ⟨hst, hlen⟩ := read_cover_ok _ _ _ h
  subst hst
  have he := accepted_nodes_eq pairs cover hlen hsub
  have hkeys : ∀ e ∈ Graph.get_edges (parse_cover (Graph.ctor pairs) cover).G,
      e.1 ∈ UMap.keys (parse_cover (Graph.ctor pairs) cover).community ∧
      e.2 ∈ UMap.keys (parse_cover (Graph.ctor pairs) cover).community := by
    intro e hmem
    simp only [Graph.get_edges, (parse_cover_G _ cover).2.2.1, Graph.ctor_edges] at hmem
    have hin : ∀ y, y ∈ endpoints pairs →
        y ∈ UMap.keys (parse_cover (Graph.ctor pairs) cover).community := by
      intro y hy
      rw [parse_cover_community_keys, ← List.mem_toFinset, he, List.mem_toFinset]
      exact hy
    refine ⟨hin _ ?_, hin _ ?_⟩
    · simp only [endpoints, List.mem_append, List.mem_map]
      exact Or.inl ⟨e, hmem, rfl⟩
    · simp only [endpoints, List.mem_append, List.mem_map]
      exact Or.inr ⟨e, hmem, rfl⟩
  refine ⟨?_, ?_⟩
  · intro e hmem
    obtain ⟨h1, h2⟩ := hkeys e hmem
    obtain ⟨a, ha⟩ := Option.isSome_iff_exists.mp ((UMap.find?_isSome_iff _ _).mpr h1)
    obtain ⟨b, hb⟩ := Option.isSome_iff_exists.mp ((UMap.find?_isSome_iff _ _).mpr h2)
    exact ⟨⟨a, by simp [UMap.at, ha]⟩, ⟨b, by simp [UMap.at, hb]⟩⟩
  · obtain ⟨counted, hc⟩ := count_edges_ok _ _ hkeys (parse_cover (Graph.ctor pairs) cover).clusters
    refine ⟨sum_terms (Graph.size (parse_cover (Graph.ctor pairs) cover).G : Int) counted, ?_⟩
    simp only [modularity, hc]

theorem C5_lookups_succeed_witness :
    (∀ e ∈ Graph.get_edges (parse_cover (Graph.ctor [(1, 2)]) (.alternate [[2, 1]])).G,
      (∃ a, UMap.at (parse_cover (Graph.ctor [(1, 2)]) (.alternate [[2, 1]])).community e.1
        = .ok a) ∧
      (∃ b, UMap.at (parse_cover (Graph.ctor [(1, 2)]) (.alternate [[2, 1]])).community e.2
        = .ok b)) ∧
    ∃ q, modularity (parse_cover (Graph.ctor [(1, 2)]) (.alternate [[2, 1]])).G
      (parse_cover (Graph.ctor [(1, 2)]) (.alternate [[2, 1]])).clusters
      (parse_cover (Graph.ctor [(1, 2)]) (.alternate [[2, 1]])).community = .ok q :=
  C5_lookups_succeed [(1, 2)] (.alternate [[2, 1]]) _ rfl (by decide)

/-! ## Facts about the modularity pass -/

theorem UMap.upd_eq_map {V : Type} (d : V) (f : V → V) (m : UMap V) (k : Int)
    (hwf : UMap.WF m) (hk : k ∈ UMap.keys m) :
    UMap.upd d f m k = m.map (fun p => if p.1 = k then (p.1, f p.2) else p) := by
  induction m with
  | nil => simp [UMap.keys] at hk
  | cons hd t ih =>
    obtain ⟨k1, v⟩ := hd
    have hnd : k1 ∉ UMap.keys t ∧ UMap.WF t := by
      simpa [UMap.WF, UMap.keys] using hwf
    by_cases h1 : k1 = k
    · subst h1
      have ht : t.map (fun p => if p.1 = k1 then (p.1, f p.2) else p) = t := by
        have : ∀ p ∈ t, (fun p : Int × V => if p.1 = k1 then (p.1, f p.2) else p) p = id p := by
          intro p hp
          have hne : ¬ p.1 = k1 := by
            intro e
            apply hnd.1
            rw [← e]
            exact List.mem_map_of_mem Prod.fst hp
          simp [hne]
        rw [List.map_congr_left this, List.map_id]
      simp [UMap.upd, ht]
    · have hk2 : k ∈ UMap.keys t := by
        have : k = k1 ∨ k ∈ UMap.keys t := by simpa [UMap.keys] using hk
        rcases this with e | e
        · exact absurd e.symm h1
        · exact e
      simp [UMap.upd, h1, ih hnd.2 hk2]

theorem keys_map_bump (f : Int → Nat) (clusters : UMap Cluster) :
    UMap.keys (clusters.map (bump f)) = UMap.keys clusters := by
  simp only [UMap.keys, List.map_map]
  rfl

theorem bump_zero (clusters : UMap Cluster) : clusters.map (bump (fun _ => 0)) = clusters := by
  have : (bump (fun _ => 0)) = id := by
    funext p
    rfl
  rw [this, List.map_id]

theorem bump_bump (f g : Int → Nat) (clusters : UMap Cluster) :
    (clusters.map (bump f)).map (bump g) = clusters.map (bump (fun l => f l + g l)) := by
  rw [List.map_map]
  apply List.map_congr_left
  intro p _
  simp only [Function.comp, bump, Nat.add_assoc]

theorem intra_count_cons (community : UMap Int) (e : Int × Int) (t : List (Int × Int))
    (c : Int) :
    intra_count community (e :: t) c =
      intra_count community [e] c + intra_count community t c := by
  simp only [intra_count, List.countP_cons, List.countP_nil]
  omega

theorem count_edge_eq_map (community : UMap Int) (clusters : UMap Cluster) (e : Int × Int)
    (hwf : UMap.WF clusters)
    (hkeys : ∀ l, UMap.find? community e.1 = some l → UMap.find? community e.2 = some l →
      l ∈ UMap.keys clusters)
    (c1 : UMap Cluster) (h : count_edge community clusters e = .ok c1) :
    c1 = clusters.map (bump (fun l => intra_count community [e] l)) := by
  unfold count_edge UMap.at at h
  cases ha : UMap.find? community e.1 with
  | none => simp [ha] at h
  | some a =>
    cases hb : UMap.find? community e.2 with
    | none => simp [ha, hb] at h
    | some b =>
      simp only [ha, hb] at h
      by_cases hab : a = b
      · subst hab
        simp only [if_true, Except.ok.injEq] at h
        rw [← h, UMap.upd_eq_map _ _ _ _ hwf (hkeys a ha hb)]
        apply List.map_congr_left
        intro p _
        by_cases hp : p.1 = a
        · simp [bump, intra_count, ha, hb, hp, Cluster.increase_edge_count]
        · have hp2 : ¬ a = p.1 := fun e => hp e.symm
          simp [bump, intra_count, ha, hb, hp, hp2]
      · simp only [hab, if_false, Except.ok.injEq] at h
        rw [← h]
        have hz : (fun l => intra_count community [e] l) = fun _ => 0 := by
          funext l
          simp only [intra_count, List.countP_cons, List.countP_nil, ha, hb, Option.some.injEq]
          have : ¬ (a = l ∧ b = l) := fun hh => hab (hh.1.trans hh.2.symm)
          simp [this]
        rw [hz, bump_zero]

/-- The counting loop adds to every cluster of the map the number of edge records whose two
endpoints carry its label, provided each such label is a key of the map. -/
theorem count_edges_eq_map (community : UMap Int) (es : List (Int × Int)) :
    ∀ (clusters : UMap Cluster), UMap.WF clusters →
      (∀ e ∈ es, ∀ l, UMap.find? community e.1 = some l →
        UMap.find? community e.2 = some l → l ∈ UMap.keys clusters) →
      ∀ counted, count_edges community es clusters = .ok counted →
        counted = clusters.map (bump (fun l => intra_count community es l)) := by
  induction es with
  | nil =>
    intro clusters _ _ counted h
    simp only [count_edges, Except.ok.injEq] at h
    rw [← h]
    have : (fun l => intra_count community [] l) = fun _ => 0 := by
      funext l
      simp [intra_count]
    rw [this, bump_zero]
  | cons e t ih =>
    intro clusters hwf hkeys counted h
    unfold count_edges at h
    cases h1 : count_edge community clusters e with
    | error f => simp [h1] at h
    | ok c1 =>
      simp only [h1] at h
      have hc1 := count_edge_eq_map community clusters e hwf
        (fun l => hkeys e (List.mem_cons_self e t) l) c1 h1
      subst hc1
      have hwf1 : UMap.WF (clusters.map (bump (fun l => intra_count community [e] l))) := by
        unfold UMap.WF
        rw [keys_map_bump]
        exact hwf
      have hkeys1 : ∀ e1 ∈ t, ∀ l, UMap.find? community e1.1 = some l →
          UMap.find? community e1.2 = some l →
          l ∈ UMap.keys (clusters.map (bump (fun l => intra_count community [e] l))) := by
        intro e1 he1 l ha hb
        rw [keys_map_bump]
        exact hkeys e1 (List.mem_cons_of_mem e he1) l ha hb
      have hf : (fun l => intra_count community [e] l + intra_count community t l) =
          fun l => intra_count community (e :: t) l := by
        funext l
        exact (intra_count_cons community e t l).symm
      rw [ih _ hwf1 hkeys1 counted h, bump_bump, hf]

theorem foldl_add_eq_sum {α : Type} (g : α → ℚ) (l : List α) :
    ∀ a : ℚ, l.foldl (fun acc x => acc + g x) a = a + (l.map g).sum := by
  induction l with
  | nil => intro a; simp
  | cons x t ih =>
    intro a
    simp only [List.foldl_cons, List.map_cons, List.sum_cons, ih]
    ring

theorem sum_terms_eq (m : Int) (clusters : UMap Cluster) :
    sum_terms m clusters = (clusters.map (fun p => term m p.2)).sum := by
  simp only [sum_terms, foldl_add_eq_sum (fun p : Int × Cluster => term m p.2), zero_add]

/-- On a cluster map with zero edge counts and a cluster for every label shared by the two
endpoints of an edge record, `modularity` evaluates the formula of the specification. -/
theorem modularity_eq_formula (G : Graph) (clusters : UMap Cluster) (community : UMap Int)
    (v : ℚ) (hwf : UMap.WF clusters) (hzero : ∀ p ∈ clusters, p.2.num_edges = 0)
    (hkeys : ∀ e ∈ G.edges, ∀ l, UMap.find? community e.1 = some l →
      UMap.find? community e.2 = some l → l ∈ UMap.keys clusters)
    (h : modularity G clusters community = .ok v) :
    v = modularity_formula G clusters community := by
  unfold modularity at h
  cases hc : count_edges community (Graph.get_edges G) clusters with
  | error f => simp [hc] at h
  | ok counted =>
    simp only [hc, Except.ok.injEq] at h
    have hmap := count_edges_eq_map community _ clusters hwf hkeys counted hc
    rw [← h, hmap, sum_terms_eq, modularity_formula, List.map_map]
    congr 1
    apply List.map_congr_left
    intro p hp
    simp only [Function.comp, term, bump, Cluster.get_edge_count, Cluster.get_degree,
      hzero p hp, Graph.get_edges, Graph.size]
    push_cast
    ring

/-! ## Claims about the value of `modularity` -/

/-- C1 as stated fails for cluster maps that `read_cover` does not produce: a cluster that
already carries an edge count keeps it (first input, value 5 against 0), and a label
without a cluster gets a fresh cluster inside `modularity` (second input, value 1 against
the empty sum). -/
theorem C1_counterexample :
    (∃ v, modularity (Graph.ctor [(1, 2)])
        [(0, { members := [1, 2], degree := 2, num_edges := 5 })] [(1, 0), (2, 0)] = .ok v ∧
      v ≠ modularity_formula (Graph.ctor [(1, 2)])
        [(0, { members := [1, 2], degree := 2, num_edges := 5 })] [(1, 0), (2, 0)]) ∧
    (∃ v, modularity (Graph.ctor [(1, 2)]) [] [(1, 0), (2, 0)] = .ok v ∧
      v ≠ modularity_formula (Graph.ctor [(1, 2)]) [] [(1, 0), (2, 0)]) := by
  refine ⟨⟨5, ?_, ?_⟩, ⟨1, ?_, ?_⟩⟩
  · simp [modularity, count_edges, count_edge, UMap.at, UMap.find?, UMap.upd, Graph.ctor,
      Graph.read_pairs, Graph.read_pair, Graph.get_edges, Graph.size, sum_terms, term,
      Cluster.increase_edge_count, Cluster.get_edge_count, Cluster.get_degree]
    norm_num
  · simp [modularity_formula, intra_count, UMap.find?, Graph.ctor, Graph.read_pairs,
      Graph.read_pair]
  · simp [modularity, count_edges, count_edge, UMap.at, UMap.find?, UMap.upd, Graph.ctor,
      Graph.read_pairs, Graph.read_pair, Graph.get_edges, Graph.size, sum_terms, term,
      Cluster.increase_edge_count, Cluster.get_edge_count, Cluster.get_degree, Cluster.new]
  · simp [modularity_formula]

/-- C1, amended: for a graph with `m > 0` and `2m < 2^31`, and a cluster map whose edge
counts are all 0, whose aggregate degrees are below `2^31`, and that has a cluster for every
label shared by the two endpoints of an edge record, the value `modularity` returns is the
sum over the clusters of the map of `intra_c / m - (deg_c / (2m))^2`; the counting loop
succeeds and leaves every edge count and every degree below `2^31`, so that the values the
getters return as `int` are the counters. -/
theorem C1_modularity_formula (pairs : List (Int × Int)) (clusters : UMap Cluster)
    (community : UMap Int) (v : ℚ)
    (_hm : 0 < Graph.size (Graph.ctor pairs))
    (hm31 : 2 * Graph.size (Graph.ctor pairs) < 2 ^ 31)
    (hwf : UMap.WF clusters)
    (hzero : ∀ p ∈ clusters, p.2.num_edges = 0)
    (hdeg : ∀ p ∈ clusters, p.2.degree < 2 ^ 31)
    (hkeys : ∀ e ∈ pairs, ∀ l, UMap.find? community e.1 = some l →
      UMap.find? community e.2 = some l → l ∈ UMap.keys clusters)
    (h : modularity (Graph.ctor pairs) clusters community = .ok v) :
    v = modularity_formula (Graph.ctor pairs) clusters community ∧
    ∃ counted, count_edges community (Graph.get_edges (Graph.ctor pairs)) clusters
        = .ok counted ∧
      ∀ p ∈ counted, p.2.num_edges < 2 ^ 31 ∧ p.2.degree < 2 ^ 31 := by
  have hk2 : ∀ e ∈ (Graph.ctor pairs).edges, ∀ l, UMap.find? community e.1 = some l →
      UMap.find? community e.2 = some l → l ∈ UMap.keys clusters := by
    intro e he
    rw [Graph.ctor_edges] at he
    exact hkeys e he
  refine ⟨modularity_eq_formula (Graph.ctor pairs) clusters community v hwf hzero hk2 h, ?_⟩
  unfold modularity at h
  cases hc : count_edges community (Graph.get_edges (Graph.ctor pairs)) clusters with
  | error f => simp [hc] at h
  | ok counted =>
    refine ⟨counted, rfl, ?_⟩
    have hmap := count_edges_eq_map community _ clusters hwf hk2 counted hc
    intro p hp
    rw [hmap] at hp
    obtain ⟨q, hq, rfl⟩ := List.mem_map.mp hp
    have hle : intra_count community (Graph.ctor pairs).edges q.1 ≤ pairs.length := by
      simp only [Graph.ctor_edges, intra_count]
      exact List.countP_le_length _
    have hm2 : 2 * pairs.length < 2 ^ 31 := by
      simpa [Graph.size, Graph.ctor_m] using hm31
    refine ⟨?_, hdeg q hq⟩
    simp only [bump, hzero q hq, Graph.get_edges]
    omega

theorem C1_modularity_formula_witness :
    (3 / 8 : ℚ) = modularity_formula (Graph.ctor [(1, 2), (2, 3), (3, 1), (4, 5)])
      [(7, { members := [3, 2, 1], degree := 6, num_edges := 0 }),
       (8, { members := [5, 4], degree := 2, num_edges := 0 })]
      [(1, 7), (2, 7), (3, 7), (4, 8), (5, 8)] :=
  (C1_modularity_formula [(1, 2), (2, 3), (3, 1), (4, 5)]
    [(7, { members := [3, 2, 1], degree := 6, num_edges := 0 }),
     (8, { members := [5, 4], degree := 2, num_edges := 0 })]
    [(1, 7), (2, 7), (3, 7), (4, 8), (5, 8)] (3 / 8)
    (by decide) (by decide) (by decide) (by decide) (by decide)
    (by
      intro e he l h1 h2
      simp only [List.mem_cons, List.mem_nil_iff, or_false] at he
      rcases he with rfl | rfl | rfl | rfl <;>
        simp_all [UMap.find?, UMap.keys])
    (by
      simp [modularity, count_edges, count_edge, UMap.at, UMap.find?, UMap.upd, Graph.ctor,
        Graph.read_pairs, Graph.read_pair, Graph.get_edges, Graph.size, sum_terms, term,
        Cluster.increase_edge_count, Cluster.get_edge_count, Cluster.get_degree]
      norm_num)).1

/-- C2: on the edge list `1 2, 2 3, 3 1, 4 5` and the cover `1:A 2:A 3:A 4:B 5:B` with two
different labels, the graph has 4 edge records, `read_cover` accepts and yields cluster `A`
with degree 6 and cluster `B` with degree 2, the counting loop counts 3 edges for `A` and 1
for `B`, and `modularity` returns 3/8. -/
theorem C2_scenario (A B : Int) (hAB : A ≠ B) :
    Graph.size (read_edgelist scenario_edges) = 4 ∧
    ∃ st, read_cover (read_edgelist scenario_edges) (scenario_cover A B) = .ok st ∧
      (UMap.find? st.clusters A).map Cluster.get_degree = some 6 ∧
      (UMap.find? st.clusters B).map Cluster.get_degree = some 2 ∧
      (∃ counted, count_edges st.community (Graph.get_edges st.G) st.clusters = .ok counted ∧
        (UMap.find? counted A).map Cluster.get_edge_count = some 3 ∧
        (UMap.find? counted B).map Cluster.get_edge_count = some 1) ∧
      modularity st.G st.clusters st.community = .ok (3 / 8) ∧
      run scenario_edges (scenario_cover A B) = .ok (3 / 8) := by
  have hBA : ¬ B = A := fun e => hAB e.symm
  have hG : read_edgelist scenario_edges =
      { adj_list := [(1, [3, 2]), (2, [3, 1]), (3, [1, 2]), (4, [5]), (5, [4])],
        edges := [(1, 2), (2, 3), (3, 1), (4, 5)], n := 5, m := 4 } := by
    rfl
  have hst : read_cover (read_edgelist scenario_edges) (scenario_cover A B) =
      .ok { clusters := [(A, { members := [3, 2, 1], degree := 6, num_edges := 0 }),
                         (B, { members := [5, 4], degree := 2, num_edges := 0 })],
            community := [(1, A), (2, A), (3, A), (4, B), (5, B)],
            G := { adj_list := [(1, [3, 2]), (2, [3, 1]), (3, [1, 2]), (4, [5]), (5, [4])],
                   edges := [(1, 2), (2, 3), (3, 1), (4, 5)], n := 5, m := 4 } } := by
    rw [hG]
    simp [read_cover, scenario_cover, parse_cover, read_standard, assign, UMap.upd, UMap.set,
      UMap.find?, Graph.degree, Cluster.add_member, Cluster.new, UMap.size, Graph.order, hAB,
      hBA]
  have hcount : count_edges [(1, A), (2, A), (3, A), (4, B), (5, B)]
      [(1, 2), (2, 3), (3, 1), (4, 5)]
      [(A, { members := [3, 2, 1], degree := 6, num_edges := 0 }),
       (B, { members := [5, 4], degree := 2, num_edges := 0 })] =
      .ok [(A, { members := [3, 2, 1], degree := 6, num_edges := 3 }),
           (B, { members := [5, 4], degree := 2, num_edges := 1 })] := by
    simp [count_edges, count_edge, UMap.at, UMap.find?, UMap.upd,
      Cluster.increase_edge_count, hAB, hBA]
  have hmod : modularity
      { adj_list := [(1, [3, 2]), (2, [3, 1]), (3, [1, 2]), (4, [5]), (5, [4])],
        edges := [(1, 2), (2, 3), (3, 1), (4, 5)], n := 5, m := 4 }
      [(A, { members := [3, 2, 1], degree := 6, num_edges := 0 }),
       (B, { members := [5, 4], degree := 2, num_edges := 0 })]
      [(1, A), (2, A), (3, A), (4, B), (5, B)] = .ok (3 / 8) := by
    simp only [modularity, Graph.get_edges, hcount, Graph.size]
    simp only [sum_terms, term, Cluster.get_edge_count, Cluster.get_degree, List.foldl_cons,
      List.foldl_nil]
    norm_num
  refine ⟨by rw [hG]; rfl, _, hst, ?_, ?_, ⟨_, hcount, ?_, ?_⟩, hmod, ?_⟩
  · simp [UMap.find?, Cluster.get_degree]
  · simp [UMap.find?, Cluster.get_degree, hAB]
  · simp [UMap.find?, Cluster.get_edge_count]
  · simp [UMap.find?, Cluster.get_edge_count, hAB]
  · simp only [run, hst, hmod]

theorem C2_scenario_witness :
    (0 : Int) ≠ 1 ∧ run scenario_edges (scenario_cover 0 1) = .ok (3 / 8) :=
  ⟨by decide, by
    obtain ⟨_, _, _, _, _, _, _, h⟩ := C2_scenario 0 1 (by decide)
    exact h⟩

/-! ## The alternate format, line by line -/

theorem members_of_assign (st : CoverState) (x l c : Int) (y : Int) :
    y ∈ members_of (assign st x l).clusters c ↔
      y ∈ members_of st.clusters c ∨ (y = x ∧ c = l) := by
  simp only [members_of, assign, UMap.find?_upd]
  by_cases hc : c = l
  · subst hc
    cases hf : UMap.find? st.clusters c with
    | none => simp [Cluster.add_member, Cluster.new]
    | some cl => simp [Cluster.add_member, List.mem_insert_iff, or_comm]
  · simp [hc]

theorem read_standard_members (ps : List (Int × Int)) :
    ∀ (st : CoverState) (c y : Int),
      y ∈ members_of (read_standard ps st).clusters c ↔
        y ∈ members_of st.clusters c ∨ (y, c) ∈ ps := by
  induction ps with
  | nil => intro st c y; simp [read_standard_nil]
  | cons p t ih =>
    intro st c y
    obtain ⟨a, b⟩ := p
    rw [read_standard_cons, ih, members_of_assign]
    simp only [List.mem_cons, Prod.mk.injEq]
    tauto

theorem mem_line_pairs (i : Int) (line : List Int) (x c : Int) :
    (x, c) ∈ line_pairs i line ↔ x ∈ before_sentinel line ∧ c = i := by
  simp only [line_pairs, List.mem_map, Prod.mk.injEq]
  constructor
  · rintro ⟨a, ha, rfl, rfl⟩
    exact ⟨ha, rfl⟩
  · rintro ⟨hx, rfl⟩
    exact ⟨x, hx, rfl, rfl⟩

theorem mem_lines_pairs (lines : List (List Int)) :
    ∀ (k x c : Int), (x, c) ∈ lines_pairs lines k ↔
      ∃ j : Nat, c = k + (j : Int) ∧ x ∈ before_sentinel (lines.getD j []) := by
  induction lines with
  | nil =>
    intro k x c
    simp [lines_pairs, before_sentinel]
  | cons line rest ih =>
    intro k x c
    simp only [lines_pairs, List.mem_append, mem_line_pairs, ih]
    constructor
    · rintro (⟨hx, rfl⟩ | ⟨j, rfl, hx⟩)
      · exact ⟨0, by simp, by simpa using hx⟩
      · exact ⟨j + 1, by push_cast; ring, by simpa using hx⟩
    · rintro ⟨j, rfl, hx⟩
      cases j with
      | zero => exact Or.inl ⟨by simpa using hx, by simp⟩
      | succ j => exact Or.inr ⟨j, by push_cast; ring, by simpa using hx⟩

theorem lines_pairs_take_succ (lines : List (List Int)) :
    ∀ (i : Nat) (k : Int), lines_pairs (lines.take (i + 1)) k =
      lines_pairs (lines.take i) k ++ line_pairs (k + (i : Int)) (lines.getD i []) := by
  induction lines with
  | nil => intro i k; simp [lines_pairs, line_pairs, before_sentinel]
  | cons line rest ih =>
    intro i k
    cases i with
    | zero => simp [lines_pairs]
    | succ i =>
      have h := ih i (k + 1)
      have hk : k + 1 + (i : Int) = k + ((i + 1 : Nat) : Int) := by push_cast; ring
      rw [hk] at h
      simp only [List.take_succ_cons, lines_pairs, h, List.append_assoc,
        List.getD_cons_succ]

theorem last_label_line_pairs (i : Int) (nodes : List Int) (x : Int) :
    last_label (nodes.map (fun node => (node, i))) x = if x ∈ nodes then some i else none := by
  induction nodes with
  | nil => simp [last_label]
  | cons a t ih =>
    simp only [List.map_cons, last_label, ih, List.mem_cons]
    by_cases ht : x ∈ t
    · rw [if_pos ht, if_pos (Or.inr ht)]
    · rw [if_neg ht]
      by_cases ha : a = x
      · rw [if_pos ha, if_pos (Or.inl ha.symm)]
      · have ha2 : ¬ (x = a ∨ x ∈ t) := by
          rintro (e | e)
          · exact ha e.symm
          · exact ht e
        rw [if_neg ha, if_neg ha2]

/-- C10: in the alternate format the line with 0-based index `i` assigns exactly the
integers that precede its first `-1`: they are the members of cluster `i`, each is mapped
to label `i` when the line has been read, the line changes the label of no other integer,
and the keys of the community map are the integers some line assigns.  For the single line
`10 20 -1 30`, nodes 10 and 20 are members of cluster 0 and keys of the community map, and
30 is in neither. -/
theorem C10_alternate_line (G : Graph) (lines : List (List Int)) (i : Nat) :
    (∀ x, x ∈ members_of (parse_cover G (.alternate lines)).clusters (i : Int) ↔
      x ∈ before_sentinel (lines.getD i [])) ∧
    (∀ x, x ∈ before_sentinel (lines.getD i []) →
      UMap.find? (parse_cover G (.alternate (lines.take (i + 1)))).community x
        = some (i : Int)) ∧
    (∀ x, x ∉ before_sentinel (lines.getD i []) →
      UMap.find? (parse_cover G (.alternate (lines.take (i + 1)))).community x =
        UMap.find? (parse_cover G (.alternate (lines.take i))).community x) ∧
    (∀ x, x ∈ UMap.keys (parse_cover G (.alternate lines)).community ↔
      ∃ j : Nat, x ∈ before_sentinel (lines.getD j [])) ∧
    (10 ∈ members_of (parse_cover G (.alternate [[10, 20, -1, 30]])).clusters 0 ∧
      20 ∈ members_of (parse_cover G (.alternate [[10, 20, -1, 30]])).clusters 0 ∧
      30 ∉ members_of (parse_cover G (.alternate [[10, 20, -1, 30]])).clusters 0 ∧
      10 ∈ UMap.keys (parse_cover G (.alternate [[10, 20, -1, 30]])).community ∧
      20 ∈ UMap.keys (parse_cover G (.alternate [[10, 20, -1, 30]])).community ∧
      30 ∉ UMap.keys (parse_cover G (.alternate [[10, 20, -1, 30]])).community) := by
  have hmem : ∀ (ls : List (List Int)) (c x : Int),
      x ∈ members_of (parse_cover G (.alternate ls)).clusters c ↔
        (x, c) ∈ lines_pairs ls 0 := by
    intro ls c x
    rw [parse_cover_eq, read_standard_members]
    simp [CoverState.init, members_of, UMap.find?, assigned]
  have hstep : parse_cover G (.alternate (lines.take (i + 1))) =
      read_standard (line_pairs (i : Int) (lines.getD i []))
        (parse_cover G (.alternate (lines.take i))) := by
    rw [parse_cover_eq, parse_cover_eq]
    simp only [assigned, lines_pairs_take_succ, read_standard_append, zero_add]
  have hkeys : ∀ (ls : List (List Int)) (x : Int),
      x ∈ UMap.keys (parse_cover G (.alternate ls)).community ↔
        ∃ j : Nat, x ∈ before_sentinel (ls.getD j []) := by
    intro ls x
    rw [parse_cover_community_keys]
    simp only [assigned_nodes, assigned, List.mem_map]
    constructor
    · rintro ⟨⟨a, c⟩, hp, rfl⟩
      obtain ⟨j, _, hx⟩ := (mem_lines_pairs ls 0 a c).mp hp
      exact ⟨j, hx⟩
    · rintro ⟨j, hx⟩
      exact ⟨(x, (0 : Int) + (j : Int)), (mem_lines_pairs ls 0 x _).mpr ⟨j, rfl, hx⟩, rfl⟩
  refine ⟨?_, ?_, ?_, hkeys lines, ?_⟩
  · intro x
    rw [hmem, mem_lines_pairs]
    constructor
    · rintro ⟨j, hj, hx⟩
      have : j = i := by omega
      subst this
      exact hx
    · intro hx
      exact ⟨i, by simp, hx⟩
  · intro x hx
    rw [hstep, read_standard_community_find, line_pairs, last_label_line_pairs, if_pos hx]
  · intro x hx
    rw [hstep, read_standard_community_find, line_pairs, last_label_line_pairs, if_neg hx]
  · have h0 := hmem [[10, 20, -1, 30]] 0
    have hk := hkeys [[10, 20, -1, 30]]
    have hl : lines_pairs [[10, 20, -1, 30]] 0 = [(10, 0), (20, 0)] := by
      simp [lines_pairs, line_pairs, before_sentinel, List.takeWhile]
    have hb : ∀ (j : Nat) (x : Int), x ∈ before_sentinel (([[10, 20, -1, 30]] :
        List (List Int)).getD j []) → x = 10 ∨ x = 20 := by
      intro j x hx
      cases j with
      | zero => simpa [before_sentinel, List.takeWhile] using hx
      | succ j => simp [before_sentinel] at hx
    have hb0 : before_sentinel (([[10, 20, -1, 30]] : List (List Int)).getD 0 []) =
        [10, 20] := by
      simp [before_sentinel, List.takeWhile]
    refine ⟨?_, ?_, ?_, ?_, ?_, ?_⟩
    · rw [h0, hl]; decide
    · rw [h0, hl]; decide
    · rw [h0, hl]; decide
    · exact (hk 10).mpr ⟨0, by rw [hb0]; decide⟩
    · exact (hk 20).mpr ⟨0, by rw [hb0]; decide⟩
    · intro h
      obtain ⟨j, hj⟩ := (hk 30).mp h
      have := hb j 30 hj
      omega

theorem C10_alternate_line_witness :
    UMap.find? (parse_cover (Graph.ctor [(10, 20)])
      (.alternate (([[10, 20, -1, 30]] : List (List Int)).take (0 + 1)))).community 20
        = some ((0 : Nat) : Int) :=
  (C10_alternate_line (Graph.ctor [(10, 20)]) [[10, 20, -1, 30]] 0).2.1 20 (by decide)

/-! ## The handshake lemma for simple edge lists -/

theorem length_nbrs_of_read_pair (acc : UMap (List Int) × List (Int × Int)) (a b : Int)
    (hab : a ≠ b) (h1 : b ∉ nbrs_of acc.1 a) (h2 : a ∉ nbrs_of acc.1 b) (x : Int) :
    (nbrs_of (Graph.read_pair acc (a, b)).1 x).length =
      (nbrs_of acc.1 x).length + (if x = a then 1 else 0) + (if x = b then 1 else 0) := by
  have hba : ¬ b = a := fun e => hab e.symm
  simp only [nbrs_of] at h1 h2
  simp only [nbrs_of, Graph.read_pair, UMap.find?_upd]
  by_cases c2 : x = b
  · subst c2
    simp only [hba, if_true, if_false, Option.getD_some]
    rw [List.length_insert_of_not_mem h2]
  · by_cases c1 : x = a
    · subst c1
      simp only [c2, if_true, if_false, Option.getD_some]
      rw [List.length_insert_of_not_mem h1]
    · simp only [c2, c1, if_false, Nat.add_zero]

theorem read_pairs_append_singleton (l : List (Int × Int)) (e : Int × Int) :
    Graph.read_pairs (l ++ [e]) = Graph.read_pair (Graph.read_pairs l) e := by
  simp [Graph.read_pairs, List.foldl_append]

theorem mem_nbrs_of_read_pairs (pairs : List (Int × Int)) (u v : Int) :
    v ∈ nbrs_of (Graph.read_pairs pairs).1 u ↔ (u, v) ∈ pairs ∨ (v, u) ∈ pairs := by
  have h := mem_nbrs_of_foldl pairs ([], []) u v
  simpa [nbrs_of, UMap.find?] using h

/-- Handshake lemma: over any finite set that contains the endpoints, the neighbour-set
sizes of a simple edge list add up to twice the number of edge records. -/
theorem handshake (pairs : List (Int × Int)) :
    simple_edges pairs → ∀ S : Finset Int, (∀ x ∈ endpoints pairs, x ∈ S) →
      ∑ x ∈ S, (nbrs_of (Graph.read_pairs pairs).1 x).length = 2 * pairs.length := by
  induction pairs using List.reverseRecOn with
  | nil =>
    intro _ S _
    simp [Graph.read_pairs, nbrs_of, UMap.find?]
  | append_singleton l e ih =>
    intro hs S hS
    obtain ⟨a, b⟩ := e
    obtain ⟨hloop, hpw⟩ := hs
    rw [List.pairwise_append] at hpw
    obtain ⟨hpl, _, hcross⟩ := hpw
    have hsl : simple_edges l := ⟨fun e he => hloop e (List.mem_append_left _ he), hpl⟩
    have hab : a ≠ b := hloop (a, b) (by simp)
    have hn1 : (a, b) ∉ l := fun h => (hcross (a, b) h (a, b) (by simp)).1 rfl
    have hn2 : (b, a) ∉ l := fun h => (hcross (b, a) h (a, b) (by simp)).2 rfl
    have h1 : b ∉ nbrs_of (Graph.read_pairs l).1 a := by
      rw [mem_nbrs_of_read_pairs]
      tauto
    have h2 : a ∉ nbrs_of (Graph.read_pairs l).1 b := by
      rw [mem_nbrs_of_read_pairs]
      tauto
    have hSl : ∀ x ∈ endpoints l, x ∈ S := by
      intro x hx
      apply hS
      simp only [endpoints, List.map_append, List.mem_append] at hx ⊢
      tauto
    have ha : a ∈ S := hS a (by simp [endpoints])
    have hb : b ∈ S := hS b (by simp [endpoints])
    rw [read_pairs_append_singleton]
    simp only [length_nbrs_of_read_pair _ a b hab h1 h2, Finset.sum_add_distrib,
      Finset.sum_ite_eq', ha, hb, if_true, ih hsl S hSl, List.length_append,
      List.length_singleton]
    ring

theorem total_degree_assign (st : CoverState) (x l : Int) :
    total_degree (assign st x l).clusters =
      total_degree st.clusters + (Graph.nbrs st.G x).length := by
  simp only [assign]
  generalize st.clusters = cl
  induction cl with
  | nil =>
    simp [UMap.upd, total_degree, Cluster.add_member, Cluster.new, Graph.degree, Graph.nbrs,
      nbrs_of]
  | cons hd t ih =>
    obtain ⟨k1, v⟩ := hd
    by_cases h1 : k1 = l
    · simp only [UMap.upd, h1, if_true, total_degree, List.map_cons, List.sum_cons,
        Cluster.add_member, Graph.degree, Graph.nbrs, nbrs_of]
      omega
    · simp only [total_degree] at ih
      simp only [UMap.upd, h1, if_false, total_degree, List.map_cons, List.sum_cons, ih]
      omega

theorem read_standard_total_degree (ps : List (Int × Int)) :
    ∀ st : CoverState, total_degree (read_standard ps st).clusters =
      total_degree st.clusters + (ps.map (fun p => (Graph.nbrs st.G p.1).length)).sum := by
  induction ps with
  | nil => intro st; simp [read_standard_nil]
  | cons p t ih =>
    intro st
    rw [read_standard_cons, ih, total_degree_assign]
    simp only [assign_G_nbrs, List.map_cons, List.sum_cons]
    omega

/-- The aggregate degrees of the clusters add up to the degrees of the assigned nodes, one
summand per assignment. -/
theorem parse_cover_total_degree (G : Graph) (cover : CoverInput) :
    total_degree (parse_cover G cover).clusters =
      ((assigned_nodes cover).map (fun x => (Graph.nbrs G x).length)).sum := by
  rw [parse_cover_eq, read_standard_total_degree]
  simp only [CoverState.init, total_degree, assigned_nodes, List.map_map, List.map_nil,
    List.sum_nil, Nat.zero_add]
  rfl

/-- For a simple edge list and a cover that assigns each node of the graph exactly once, the
aggregate degrees add up to twice the number of edge records. -/
theorem total_degree_partition (pairs : List (Int × Int)) (cover : CoverInput)
    (hs : simple_edges pairs) (hnd : (assigned_nodes cover).Nodup)
    (hall : (assigned_nodes cover).toFinset = (endpoints pairs).toFinset) :
    total_degree (parse_cover (Graph.ctor pairs) cover).clusters = 2 * pairs.length := by
  rw [parse_cover_total_degree, ← List.sum_toFinset _ hnd, hall]
  exact handshake pairs hs (endpoints pairs).toFinset (fun x hx => List.mem_toFinset.mpr hx)

/-! ## Claims about the degree sum -/

/-- C7 as stated fails in five ways, each on an accepted cover: a repeated edge record
(degree sum 2, twice the size 4), an edge record repeated in the other orientation (2
against 4), a self-loop (1 against 2), a cover over node ids that are not in the graph (0
against 2), and a cover that lists a node twice (3 against 2). -/
theorem C7_counterexample :
    (∃ st, read_cover (Graph.ctor [(1, 2), (1, 2)]) (.standard [(1, 0), (2, 0)]) = .ok st ∧
      total_degree st.clusters ≠ 2 * Graph.size st.G) ∧
    (∃ st, read_cover (Graph.ctor [(1, 2), (2, 1)]) (.standard [(1, 0), (2, 0)]) = .ok st ∧
      total_degree st.clusters ≠ 2 * Graph.size st.G) ∧
    (∃ st, read_cover (Graph.ctor [(1, 1)]) (.standard [(1, 0)]) = .ok st ∧
      total_degree st.clusters ≠ 2 * Graph.size st.G) ∧
    (∃ st, read_cover (Graph.ctor [(1, 2)]) (.standard [(3, 0), (4, 1)]) = .ok st ∧
      total_degree st.clusters ≠ 2 * Graph.size st.G) ∧
    (∃ st, read_cover (Graph.ctor [(1, 2)]) (.standard [(1, 0), (1, 0), (2, 0)]) = .ok st ∧
      total_degree st.clusters ≠ 2 * Graph.size st.G) :=
  ⟨⟨_, rfl, by decide⟩, ⟨_, rfl, by decide⟩, ⟨_, rfl, by decide⟩, ⟨_, rfl, by decide⟩,
    ⟨_, rfl, by decide⟩⟩

/-- C7, amended: when the edge records form a simple graph (no self-loop, no pair repeated
in either orientation) and the accepted cover assigns a label to each node id at most once
and only to node ids of the graph, the aggregate degrees of the clusters add up to `2m`. -/
theorem C7_degree_sum (pairs : List (Int × Int)) (cover : CoverInput) (st : CoverState)
    (hs : simple_edges pairs) (hnd : (assigned_nodes cover).Nodup)
    (hsub : ∀ x ∈ assigned_nodes cover, x ∈ endpoints pairs)
    (h : read_cover (Graph.ctor pairs) cover = .ok st) :
    total_degree st.clusters = 2 * Graph.size (Graph.ctor pairs) ∧
    Graph.size st.G = Graph.size (Graph.ctor pairs) := by
  obtain ⟨hst, hlen⟩ := read_cover_ok _ _ _ h
  subst hst
  have he := accepted_nodes_eq pairs cover hlen hsub
  refine ⟨?_, (parse_cover_G _ cover).2.1⟩
  rw [total_degree_partition pairs cover hs hnd he]
  simp [Graph.size, Graph.ctor_m]

theorem C7_degree_sum_witness :
    total_degree (parse_cover (Graph.ctor [(1, 2), (2, 3), (3, 1), (4, 5)])
      (.standard [(1, 0), (2, 0), (3, 0), (4, 1), (5, 1)])).clusters =
      2 * Graph.size (Graph.ctor [(1, 2), (2, 3), (3, 1), (4, 5)]) ∧
    Graph.size (parse_cover (Graph.ctor [(1, 2), (2, 3), (3, 1), (4, 5)])
      (.standard [(1, 0), (2, 0), (3, 0), (4, 1), (5, 1)])).G =
      Graph.size (Graph.ctor [(1, 2), (2, 3), (3, 1), (4, 5)]) :=
  C7_degree_sum [(1, 2), (2, 3), (3, 1), (4, 5)]
    (.standard [(1, 0), (2, 0), (3, 0), (4, 1), (5, 1)]) _
    (by decide) (by decide) (by decide) rfl

/-! ## The trivial cover -/

theorem UMap.forall_upd {V : Type} (Q : V → Prop) (d : V) (f : V → V) (m : UMap V) (k : Int)
    (hd : Q (f d)) (hf : ∀ v, Q v → Q (f v)) (hm : ∀ p ∈ m, Q p.2) :
    ∀ p ∈ UMap.upd d f m k, Q p.2 := by
  induction m with
  | nil =>
    intro p hp
    simp only [UMap.upd, List.mem_singleton] at hp
    subst hp
    exact hd
  | cons hd1 t ih =>
    obtain ⟨k1, v⟩ := hd1
    have hv : Q v := hm (k1, v) (List.mem_cons_self _ _)
    have ht : ∀ p ∈ t, Q p.2 := fun p hp => hm p (List.mem_cons_of_mem _ hp)
    intro p hp
    by_cases h1 : k1 = k
    · simp only [UMap.upd, h1, if_true, List.mem_cons] at hp
      rcases hp with rfl | hp
      · exact hf v hv
      · exact ht p hp
    · simp only [UMap.upd, h1, if_false, List.mem_cons] at hp
      rcases hp with rfl | hp
      · exact hv
      · exact ih ht p hp

theorem read_standard_num_edges (ps : List (Int × Int)) :
    ∀ st : CoverState, (∀ p ∈ st.clusters, p.2.num_edges = 0) →
      ∀ p ∈ (read_standard ps st).clusters, p.2.num_edges = 0 := by
  induction ps with
  | nil => intro st h; simpa [read_standard_nil] using h
  | cons q t ih =>
    intro st h
    rw [read_standard_cons]
    apply ih
    exact UMap.forall_upd (fun c : Cluster => c.num_edges = 0) _ _ _ _ rfl (fun v hv => hv) h

/-- The clusters `read_cover` builds carry the edge count 0. -/
theorem parse_cover_num_edges (G : Graph) (cover : CoverInput) :
    ∀ p ∈ (parse_cover G cover).clusters, p.2.num_edges = 0 := by
  rw [parse_cover_eq]
  exact read_standard_num_edges _ _ (by simp [CoverState.init])

theorem parse_cover_clusters_keys (G : Graph) (cover : CoverInput) (l : Int) :
    l ∈ UMap.keys (parse_cover G cover).clusters ↔ l ∈ (assigned cover).map Prod.snd := by
  rw [parse_cover_eq, read_standard_clusters_keys]
  simp [CoverState.init, UMap.keys]

/-- The community map holds for each node the label of its last assignment. -/
theorem parse_cover_community_find (G : Graph) (cover : CoverInput) (x : Int) :
    UMap.find? (parse_cover G cover).community x = last_label (assigned cover) x := by
  rw [parse_cover_eq, read_standard_community_find]
  cases last_label (assigned cover) x <;> simp [CoverState.init, UMap.find?]

theorem last_label_mem (ps : List (Int × Int)) (x l : Int)
    (h : last_label ps x = some l) : (x, l) ∈ ps := by
  induction ps with
  | nil => simp [last_label] at h
  | cons p t ih =>
    obtain ⟨a, b⟩ := p
    simp only [last_label] at h
    cases ht : last_label t x with
    | some l2 =>
      rw [ht] at h
      simp only [Option.some.injEq] at h
      subst h
      exact List.mem_cons_of_mem _ (ih ht)
    | none =>
      rw [ht] at h
      by_cases ha : a = x
      · simp only [ha, if_true, Option.some.injEq] at h
        subst h
        subst ha
        exact List.mem_cons_self _ _
      · simp [ha] at h

theorem last_label_exists (ps : List (Int × Int)) (x : Int) (hx : x ∈ ps.map Prod.fst) :
    ∃ l, last_label ps x = some l := by
  induction ps with
  | nil => simp at hx
  | cons p t ih =>
    simp only [last_label]
    cases ht : last_label t x with
    | some l2 => exact ⟨l2, rfl⟩
    | none =>
      have hnt : x ∉ t.map Prod.fst := by
        intro hmem
        obtain ⟨l, hl⟩ := ih hmem
        rw [ht] at hl
        exact absurd hl (by simp)
      have hp : p.1 = x := by
        simp only [List.map_cons, List.mem_cons] at hx
        rcases hx with e | e
        · exact e.symm
        · exact absurd e hnt
      exact ⟨p.2, by simp [hp]⟩

theorem last_label_const (ps : List (Int × Int)) (c x : Int) (hc : ∀ p ∈ ps, p.2 = c)
    (hx : x ∈ ps.map Prod.fst) : last_label ps x = some c := by
  obtain ⟨l, hl⟩ := last_label_exists ps x hx
  have := hc (x, l) (last_label_mem ps x l hl)
  simp only at this
  rw [hl, this]

theorem UMap.singleton_of_keys {V : Type} (m : UMap V) (c : Int) (hwf : UMap.WF m)
    (hk : ∀ l, l ∈ UMap.keys m ↔ l = c) : ∃ v, m = [(c, v)] := by
  cases m with
  | nil =>
    have := (hk c).mpr rfl
    simp [UMap.keys] at this
  | cons hd t =>
    obtain ⟨k1, v⟩ := hd
    have h1 : k1 = c := (hk k1).mp (by simp [UMap.keys])
    subst h1
    cases t with
    | nil => exact ⟨v, rfl⟩
    | cons hd2 t2 =>
      obtain ⟨k2, v2⟩ := hd2
      have h2 : k2 = k1 := (hk k2).mp (by simp [UMap.keys])
      subst h2
      simp [UMap.WF, UMap.keys] at hwf

/-- C6 as stated fails when an edge record is repeated (in the same or in the other
orientation) or is a self-loop: the neighbour sets do not grow as `m` does, so the degree
sum of the single cluster stays below `2m` and the value is 3/4 on each of the inputs. -/
theorem C6_counterexample :
    (∃ st, read_cover (Graph.ctor [(1, 2), (1, 2)]) (.standard [(1, 0), (2, 0)]) = .ok st ∧
      (UMap.find? st.clusters 0).map Cluster.get_degree = some 2 ∧ Graph.size st.G = 2 ∧
      modularity st.G st.clusters st.community = .ok (3 / 4)) ∧
    (∃ st, read_cover (Graph.ctor [(1, 2), (2, 1)]) (.standard [(1, 0), (2, 0)]) = .ok st ∧
      (UMap.find? st.clusters 0).map Cluster.get_degree = some 2 ∧ Graph.size st.G = 2 ∧
      modularity st.G st.clusters st.community = .ok (3 / 4)) ∧
    (∃ st, read_cover (Graph.ctor [(1, 1)]) (.standard [(1, 0)]) = .ok st ∧
      (UMap.find? st.clusters 0).map Cluster.get_degree = some 1 ∧ Graph.size st.G = 1 ∧
      modularity st.G st.clusters st.community = .ok (3 / 4)) ∧
    (3 / 4 : ℚ) ≠ 0 := by
  refine ⟨⟨_, rfl, rfl, rfl, ?_⟩, ⟨_, rfl, rfl, rfl, ?_⟩, ⟨_, rfl, rfl, rfl, ?_⟩, by norm_num⟩
  · simp [modularity, count_edges, count_edge, UMap.at, UMap.find?, UMap.upd, UMap.set,
      Graph.ctor, Graph.read_pairs, Graph.read_pair, Graph.get_edges, Graph.size, sum_terms,
      term, Cluster.increase_edge_count, Cluster.get_edge_count, Cluster.get_degree,
      parse_cover, read_standard, assign, Graph.degree, Cluster.add_member, Cluster.new]
    norm_num
  · simp [modularity, count_edges, count_edge, UMap.at, UMap.find?, UMap.upd, UMap.set,
      Graph.ctor, Graph.read_pairs, Graph.read_pair, Graph.get_edges, Graph.size, sum_terms,
      term, Cluster.increase_edge_count, Cluster.get_edge_count, Cluster.get_degree,
      parse_cover, read_standard, assign, Graph.degree, Cluster.add_member, Cluster.new]
    norm_num
  · simp [modularity, count_edges, count_edge, UMap.at, UMap.find?, UMap.upd, UMap.set,
      Graph.ctor, Graph.read_pairs, Graph.read_pair, Graph.get_edges, Graph.size, sum_terms,
      term, Cluster.increase_edge_count, Cluster.get_edge_count, Cluster.get_degree,
      parse_cover, read_standard, assign, Graph.degree, Cluster.add_member, Cluster.new]
    norm_num

/-- C6, amended: when the edge records form a simple graph (no self-loop, no pair repeated
in either orientation), `m > 0`, and the cover assigns every node of the graph exactly once
to the single label `c`, then `read_cover` accepts, the degree sum of cluster `c` is `2m`,
the counting loop counts all `m` edge records for `c`, and `modularity` returns 0. -/
theorem C6_trivial_cover (pairs : List (Int × Int)) (cover : CoverInput) (c : Int)
    (hm : 0 < Graph.size (Graph.ctor pairs)) (hs : simple_edges pairs)
    (hc : ∀ p ∈ assigned cover, p.2 = c) (hnd : (assigned_nodes cover).Nodup)
    (hall : ∀ x, x ∈ assigned_nodes cover ↔ x ∈ endpoints pairs) :
    ∃ st, read_cover (Graph.ctor pairs) cover = .ok st ∧
      Graph.size st.G = Graph.size (Graph.ctor pairs) ∧
      (UMap.find? st.clusters c).map Cluster.get_degree = some (2 * (Graph.size st.G : Int)) ∧
      (∃ counted, count_edges st.community (Graph.get_edges st.G) st.clusters = .ok counted ∧
        (UMap.find? counted c).map Cluster.get_edge_count = some (Graph.size st.G : Int)) ∧
      modularity st.G st.clusters st.community = .ok 0 ∧
      run pairs cover = .ok 0 := by
  have hfin : (assigned_nodes cover).toFinset = (endpoints pairs).toFinset := by
    ext x
    simp only [List.mem_toFinset]
    exact hall x
  have hlen : (assigned_nodes cover).dedup.length = (Graph.ctor pairs).n := by
    rw [← List.card_toFinset, hfin, Graph.ctor_n]
  have hread : read_cover (Graph.ctor pairs) cover =
      .ok (parse_cover (Graph.ctor pairs) cover) := by
    rw [read_cover_eq]
    simp [hlen]
  obtain ⟨_, hGm, hGe, _⟩ := parse_cover_G (Graph.ctor pairs) cover
  have hmpos : 0 < pairs.length := by
    simpa [Graph.size, Graph.ctor_m] using hm
  -- the cluster map is the single entry for `c`
  obtain ⟨e0, he0⟩ := List.exists_mem_of_length_pos hmpos
  have hkeys : ∀ l, l ∈ UMap.keys (parse_cover (Graph.ctor pairs) cover).clusters ↔ l = c := by
    intro l
    rw [parse_cover_clusters_keys]
    constructor
    · intro hl
      obtain ⟨p, hp, rfl⟩ := List.mem_map.mp hl
      exact hc p hp
    · rintro rfl
      have h1 : e0.1 ∈ assigned_nodes cover :=
        (hall e0.1).mpr (by
          simp only [endpoints, List.mem_append, List.mem_map]
          exact Or.inl ⟨e0, he0, rfl⟩)
      obtain ⟨p, hp, _⟩ := List.mem_map.mp h1
      exact List.mem_map.mpr ⟨p, hp, hc p hp⟩
  obtain ⟨C, hC⟩ := UMap.singleton_of_keys _ c (parse_cover_clusters_WF _ cover) hkeys
  have hdeg : C.degree = 2 * pairs.length := by
    have h := total_degree_partition pairs cover hs hnd hfin
    rw [hC] at h
    simpa [total_degree] using h
  have hne : C.num_edges = 0 := by
    have h := parse_cover_num_edges (Graph.ctor pairs) cover (c, C)
    rw [hC] at h
    exact h (List.mem_singleton.mpr rfl)
  -- every node of the graph carries the label `c`
  have hfind : ∀ x ∈ endpoints pairs,
      UMap.find? (parse_cover (Graph.ctor pairs) cover).community x = some c := by
    intro x hx
    rw [parse_cover_community_find]
    exact last_label_const _ c x hc ((hall x).mpr hx)
  have hends : ∀ e ∈ pairs, e.1 ∈ endpoints pairs ∧ e.2 ∈ endpoints pairs := by
    intro e he
    simp only [endpoints, List.mem_append, List.mem_map]
    exact ⟨Or.inl ⟨e, he, rfl⟩, Or.inr ⟨e, he, rfl⟩⟩
  have hedges : Graph.get_edges (parse_cover (Graph.ctor pairs) cover).G = pairs := by
    simp only [Graph.get_edges, hGe, Graph.ctor_edges]
  have hsize : Graph.size (parse_cover (Graph.ctor pairs) cover).G = pairs.length := by
    simp only [Graph.size, hGm, Graph.ctor_m]
  have hintra : intra_count (parse_cover (Graph.ctor pairs) cover).community pairs c =
      pairs.length := by
    unfold intra_count
    rw [List.countP_eq_length]
    intro e he
    simp [hfind e.1 (hends e he).1, hfind e.2 (hends e he).2]
  have hcok : ∃ counted, count_edges (parse_cover (Graph.ctor pairs) cover).community pairs
      (parse_cover (Graph.ctor pairs) cover).clusters = .ok counted := by
    apply count_edges_ok
    intro e he
    exact ⟨(UMap.find?_isSome_iff _ _).mp (by simp [hfind e.1 (hends e he).1]),
      (UMap.find?_isSome_iff _ _).mp (by simp [hfind e.2 (hends e he).2])⟩
  obtain ⟨counted, hcount⟩ := hcok
  have hcounted : counted = [(c, { C with num_edges := pairs.length })] := by
    have h := count_edges_eq_map _ pairs _ (parse_cover_clusters_WF _ cover)
      (fun e _ l _ _ => by
        have hl : l = c := by
          have h1 := hfind e.1 (hends e (by assumption)).1
          simp_all
        exact (hkeys l).mpr hl) counted hcount
    rw [h, hC]
    simp [bump, hintra, hne]
  have hmod : modularity (parse_cover (Graph.ctor pairs) cover).G
      (parse_cover (Graph.ctor pairs) cover).clusters
      (parse_cover (Graph.ctor pairs) cover).community = .ok 0 := by
    unfold modularity
    rw [hedges, hcount, hcounted, hsize]
    simp only [sum_terms, term, Cluster.get_edge_count, Cluster.get_degree, List.foldl_cons,
      List.foldl_nil, hdeg, Except.ok.injEq]
    have hq : (pairs.length : ℚ) ≠ 0 := by
      exact_mod_cast (Nat.pos_iff_ne_zero.mp hmpos)
    push_cast
    field_simp
  refine ⟨_, hread, ?_, ?_, ⟨counted, ?_, ?_⟩, hmod, ?_⟩
  · simp only [Graph.size, hGm]
  · rw [hC, hsize]
    simp [UMap.find?, Cluster.get_degree, hdeg]
  · rw [hedges]
    exact hcount
  · rw [hcounted, hsize]
    simp [UMap.find?, Cluster.get_edge_count]
  · simp only [run, read_edgelist, hread, hmod]

theorem C6_trivial_cover_witness :
    run [(1, 2), (2, 3), (3, 1)] (.alternate [[3, 1, 2, -1]]) = .ok 0 := by
  obtain ⟨_, _, _, _, _, _, h⟩ := C6_trivial_cover [(1, 2), (2, 3), (3, 1)]
    (.alternate [[3, 1, 2, -1]]) 0 (by decide) (by decide) (by decide) (by decide)
    (by
      intro x
      simp only [assigned_nodes, assigned, lines_pairs, line_pairs, before_sentinel, endpoints]
      simp
      omega)
  exact h

/-! ## Empty lines of the alternate format -/

theorem parse_alternate_members (G : Graph) (ls : List (List Int)) (c x : Int) :
    x ∈ members_of (parse_cover G (.alternate ls)).clusters c ↔ (x, c) ∈ lines_pairs ls 0 := by
  rw [parse_cover_eq, read_standard_members]
  simp [CoverState.init, members_of, UMap.find?, assigned]

theorem parse_alternate_take_succ (G : Graph) (lines : List (List Int)) (i : Nat) :
    parse_cover G (.alternate (lines.take (i + 1))) =
      read_standard (line_pairs (i : Int) (lines.getD i []))
        (parse_cover G (.alternate (lines.take i))) := by
  rw [parse_cover_eq, parse_cover_eq]
  simp only [assigned, lines_pairs_take_succ, read_standard_append, zero_add]

/-- A label of the alternate format has a cluster exactly when its line assigns a node. -/
theorem parse_alternate_clusters_key (G : Graph) (ls : List (List Int)) (i : Nat) :
    (i : Int) ∈ UMap.keys (parse_cover G (.alternate ls)).clusters ↔
      before_sentinel (ls.getD i []) ≠ [] := by
  rw [parse_cover_clusters_keys]
  simp only [assigned, List.mem_map]
  constructor
  · rintro ⟨⟨a, c⟩, hp, hc⟩
    simp only at hc
    subst hc
    obtain ⟨j, hj, hx⟩ := (mem_lines_pairs ls 0 a _).mp hp
    have hji : j = i := by omega
    subst hji
    exact List.ne_nil_of_mem hx
  · intro hne
    obtain ⟨x, hx⟩ := List.exists_mem_of_ne_nil _ hne
    exact ⟨(x, (i : Int)), (mem_lines_pairs ls 0 x _).mpr ⟨i, by simp, hx⟩, rfl⟩

/-- C11 as stated fails: for the lines `[]`, `[5]` and the graph with the single record
`5 5` the cover is accepted and the returned cluster map has no entry for label 0. -/
theorem C11_counterexample :
    ∃ st, read_cover (Graph.ctor [(5, 5)]) (.alternate [[], [5]]) = .ok st ∧
      UMap.find? st.clusters 0 = none ∧ UMap.keys st.clusters = [1] :=
  ⟨_, rfl, rfl, rfl⟩

/-- C11, amended: an empty line at index `i` creates no cluster (the cluster map has no
entry for label `i`, also in what `read_cover` returns), and it still consumes the label:
the integers the following line assigns are members of cluster `i + 1` and are mapped to
label `i + 1` when that line has been read. -/
theorem C11_empty_line (G : Graph) (lines : List (List Int)) (i : Nat)
    (hempty : lines.getD i [] = []) :
    UMap.find? (parse_cover G (.alternate lines)).clusters (i : Int) = none ∧
    (∀ st, read_cover G (.alternate lines) = .ok st →
      UMap.find? st.clusters (i : Int) = none) ∧
    (∀ x, x ∈ before_sentinel (lines.getD (i + 1) []) →
      x ∈ members_of (parse_cover G (.alternate lines)).clusters ((i + 1 : Nat) : Int) ∧
      UMap.find? (parse_cover G (.alternate (lines.take (i + 1 + 1)))).community x =
        some ((i + 1 : Nat) : Int)) := by
  have hnone : UMap.find? (parse_cover G (.alternate lines)).clusters (i : Int) = none := by
    rw [UMap.find?_eq_none_iff, parse_alternate_clusters_key, hempty]
    simp [before_sentinel]
  refine ⟨hnone, ?_, ?_⟩
  · intro st hst
    obtain ⟨h1, _⟩ := read_cover_ok _ _ _ hst
    rw [h1]
    exact hnone
  · intro x hx
    refine ⟨?_, ?_⟩
    · rw [parse_alternate_members, mem_lines_pairs]
      exact ⟨i + 1, by simp, hx⟩
    · rw [parse_alternate_take_succ, read_standard_community_find, line_pairs,
        last_label_line_pairs, if_pos hx]

theorem C11_empty_line_witness :
    UMap.find? (parse_cover (Graph.ctor [(5, 5)]) (.alternate [[], [5]])).clusters
      ((0 : Nat) : Int) = none :=
  (C11_empty_line (Graph.ctor [(5, 5)]) [[], [5]] 0 rfl).1

/-! ## The sum of the edge counts -/

theorem total_edges_upd (clusters : UMap Cluster) (k : Int) :
    total_edges (UMap.upd Cluster.new Cluster.increase_edge_count clusters k) =
      total_edges clusters + 1 := by
  induction clusters with
  | nil => simp [UMap.upd, total_edges, Cluster.new, Cluster.increase_edge_count]
  | cons hd t ih =>
    obtain ⟨k1, v⟩ := hd
    by_cases h1 : k1 = k
    · simp only [UMap.upd, h1, if_true, total_edges, List.map_cons, List.sum_cons,
        Cluster.increase_edge_count]
      omega
    · simp only [total_edges] at ih
      simp only [UMap.upd, h1, if_false, total_edges, List.map_cons, List.sum_cons, ih]
      omega

theorem total_edges_count_edge (community : UMap Int) (clusters : UMap Cluster)
    (e : Int × Int) (c1 : UMap Cluster) (h : count_edge community clusters e = .ok c1) :
    total_edges c1 = total_edges clusters + same_label_count community [e] := by
  unfold count_edge UMap.at at h
  cases ha : UMap.find? community e.1 with
  | none => simp [ha] at h
  | some a =>
    cases hb : UMap.find? community e.2 with
    | none => simp [ha, hb] at h
    | some b =>
      simp only [ha, hb] at h
      by_cases hab : a = b
      · subst hab
        simp only [if_true, Except.ok.injEq] at h
        rw [← h, total_edges_upd]
        simp [same_label_count, ha, hb]
      · simp only [hab, if_false, Except.ok.injEq] at h
        rw [← h]
        simp [same_label_count, ha, hb, hab]

/-- The counting loop raises the sum of the edge counts by the number of edge records whose
endpoints carry the same label. -/
theorem total_edges_count_edges (community : UMap Int) (es : List (Int × Int)) :
    ∀ (clusters counted : UMap Cluster), count_edges community es clusters = .ok counted →
      total_edges counted = total_edges clusters + same_label_count community es := by
  induction es with
  | nil =>
    intro clusters counted h
    simp only [count_edges, Except.ok.injEq] at h
    rw [← h]
    simp [same_label_count]
  | cons e t ih =>
    intro clusters counted h
    unfold count_edges at h
    cases h1 : count_edge community clusters e with
    | error f => simp [h1] at h
    | ok c1 =>
      simp only [h1] at h
      rw [ih c1 counted h, total_edges_count_edge community clusters e c1 h1]
      simp only [same_label_count, List.countP_cons, List.countP_nil]
      omega

theorem total_edges_zero (clusters : UMap Cluster) (hzero : ∀ p ∈ clusters, p.2.num_edges = 0) :
    total_edges clusters = 0 := by
  induction clusters with
  | nil => rfl
  | cons hd t ih =>
    have h1 := hzero hd (List.mem_cons_self _ _)
    have h2 := ih (fun p hp => hzero p (List.mem_cons_of_mem _ hp))
    simp only [total_edges] at h2
    simp [total_edges, h1, h2]

theorem same_label_count_le (community : UMap Int) (es : List (Int × Int)) :
    same_label_count community es ≤ es.length :=
  List.countP_le_length _

/-- C15: for a cluster map whose edge counts are all 0, after the edge-counting loop the
edge counts of all clusters add up to the number of edge records whose two endpoints carry
the same community label, which is at most `m`. -/
theorem C15_edge_count_sum (pairs : List (Int × Int)) (clusters counted : UMap Cluster)
    (community : UMap Int) (hzero : ∀ p ∈ clusters, p.2.num_edges = 0)
    (h : count_edges community (Graph.get_edges (Graph.ctor pairs)) clusters = .ok counted) :
    total_edges counted = same_label_count community (Graph.get_edges (Graph.ctor pairs)) ∧
    total_edges counted ≤ Graph.size (Graph.ctor pairs) := by
  have h1 := total_edges_count_edges community _ clusters counted h
  rw [total_edges_zero clusters hzero, Nat.zero_add] at h1
  refine ⟨h1, ?_⟩
  rw [h1]
  simp only [Graph.get_edges, Graph.size, Graph.ctor_edges, Graph.ctor_m]
  exact same_label_count_le community pairs

theorem C15_edge_count_sum_witness :
    total_edges [(7, { members := [3, 2, 1], degree := 6, num_edges := 3 }),
        (8, { members := [5, 4], degree := 2, num_edges := 1 })] =
      same_label_count [(1, 7), (2, 7), (3, 7), (4, 8), (5, 8)]
        (Graph.get_edges (Graph.ctor [(1, 2), (2, 3), (3, 1), (4, 5)])) ∧
    total_edges [(7, { members := [3, 2, 1], degree := 6, num_edges := 3 }),
        (8, { members := [5, 4], degree := 2, num_edges := 1 })] ≤
      Graph.size (Graph.ctor [(1, 2), (2, 3), (3, 1), (4, 5)]) :=
  C15_edge_count_sum [(1, 2), (2, 3), (3, 1), (4, 5)]
    [(7, { members := [3, 2, 1], degree := 6, num_edges := 0 }),
     (8, { members := [5, 4], degree := 2, num_edges := 0 })]
    [(7, { members := [3, 2, 1], degree := 6, num_edges := 3 }),
     (8, { members := [5, 4], degree := 2, num_edges := 1 })]
    [(1, 7), (2, 7), (3, 7), (4, 8), (5, 8)] (by decide) rfl

/-! ## The aggregate degree of one cluster -/

theorem degree_of_assign (st : CoverState) (x l c : Int) :
    degree_of (assign st x l).clusters c =
      degree_of st.clusters c + (if c = l then (Graph.nbrs st.G x).length else 0) := by
  simp only [degree_of, assign, UMap.find?_upd]
  by_cases hc : c = l
  · subst hc
    cases hf : UMap.find? st.clusters c with
    | none =>
      simp [Cluster.add_member, Cluster.new, Graph.degree, Graph.nbrs, nbrs_of]
    | some cl =>
      simp [Cluster.add_member, Graph.degree, Graph.nbrs, nbrs_of]
  · simp [hc]

theorem label_degree_congr (G1 G2 : Graph) (h : ∀ y, Graph.nbrs G1 y = Graph.nbrs G2 y)
    (ps : List (Int × Int)) (l : Int) : label_degree G1 ps l = label_degree G2 ps l := by
  simp only [label_degree, h]

theorem label_degree_cons (G : Graph) (p : Int × Int) (ps : List (Int × Int)) (l : Int) :
    label_degree G (p :: ps) l =
      (if l = p.2 then (Graph.nbrs G p.1).length else 0) + label_degree G ps l := by
  simp only [label_degree, List.filter_cons]
  by_cases h : p.2 = l
  · simp [h]
  · have h2 : ¬ l = p.2 := fun e => h e.symm
    simp [h, h2]

/-- The aggregate degree of a cluster is the sum of the degrees of the nodes assigned to its
label, one summand per assignment. -/
theorem read_standard_degree_of (ps : List (Int × Int)) :
    ∀ (st : CoverState) (c : Int),
      degree_of (read_standard ps st).clusters c =
        degree_of st.clusters c + label_degree st.G ps c := by
  induction ps with
  | nil => intro st c; simp [read_standard_nil, label_degree]
  | cons p t ih =>
    intro st c
    rw [read_standard_cons, ih, degree_of_assign, label_degree_cons,
      label_degree_congr (assign st p.1 p.2).G st.G (assign_G_nbrs st p.1 p.2)]
    omega

theorem parse_cover_degree_of (G : Graph) (cover : CoverInput) (c : Int) :
    degree_of (parse_cover G cover).clusters c = label_degree G (assigned cover) c := by
  rw [parse_cover_eq, read_standard_degree_of]
  simp [CoverState.init, degree_of, UMap.find?]

theorem label_degree_remove_first (G : Graph) (ps : List (Int × Int)) (p : Int × Int)
    (hp : p ∈ ps) :
    label_degree G ps p.2 =
      (Graph.nbrs G p.1).length + label_degree G (remove_first p ps) p.2 := by
  induction ps with
  | nil => simp at hp
  | cons q t ih =>
    by_cases hq : q = p
    · subst hq
      simp [remove_first, label_degree_cons]
    · have ht : p ∈ t := by
        rcases List.mem_cons.mp hp with e | e
        · exact absurd e.symm hq
        · exact e
      simp only [remove_first, hq, if_false, label_degree_cons, ih ht]
      omega

/-- C16, the defect: on the edge list `1 2` and the accepted cover `1 0, 1 0, 2 0` the
cluster of label 0 has the member set `{1, 2}` and the aggregate degree 3, while the
degrees of its members add up to 2. -/
theorem C16_failing_input :
    ∃ st c, read_cover (Graph.ctor [(1, 2)]) (.standard [(1, 0), (1, 0), (2, 0)]) = .ok st ∧
      UMap.find? st.clusters 0 = some c ∧ c.members = [2, 1] ∧ c.degree = 3 ∧
      members_degree st.G c.members = 2 :=
  ⟨_, _, rfl, rfl, rfl, rfl, rfl⟩

/-- C17: in the standard format, a node `x` that is listed with label `a` and whose last
listing has label `b` is mapped to `b` in the returned community map, is a member of both
clusters, and each of the two clusters has the degree of `x` in its aggregate degree: as
long as the degrees listed for the label add up to less than `2^32` (the counter does not
wrap), the aggregate is the degree of `x` plus the degrees of the other assignments to the
label. -/
theorem C17_conflicting_labels (G : Graph) (pairs : List (Int × Int)) (x a b : Int)
    (st : CoverState) (ha : (x, a) ∈ pairs) (hb : last_label pairs x = some b)
    (h : read_cover G (.standard pairs) = .ok st) :
    UMap.find? st.community x = some b ∧
    x ∈ members_of st.clusters a ∧ x ∈ members_of st.clusters b ∧
    (label_degree G pairs a < 2 ^ 32 →
      degree_of st.clusters a =
        (Graph.degree G x).1 + label_degree G (remove_first (x, a) pairs) a ∧
      degree_of st.clusters a < 2 ^ 32) ∧
    (label_degree G pairs b < 2 ^ 32 →
      degree_of st.clusters b =
        (Graph.degree G x).1 + label_degree G (remove_first (x, b) pairs) b ∧
      degree_of st.clusters b < 2 ^ 32) := by
  obtain ⟨h1, _⟩ := read_cover_ok _ _ _ h
  subst h1
  have hbm : (x, b) ∈ pairs := last_label_mem pairs x b hb
  have hmem : ∀ c, (x, c) ∈ pairs →
      x ∈ members_of (parse_cover G (.standard pairs)).clusters c := by
    intro c hc
    rw [parse_cover_eq, read_standard_members]
    exact Or.inr hc
  have hdeg : ∀ c, (x, c) ∈ pairs → label_degree G pairs c < 2 ^ 32 →
      degree_of (parse_cover G (.standard pairs)).clusters c =
        (Graph.degree G x).1 + label_degree G (remove_first (x, c) pairs) c ∧
      degree_of (parse_cover G (.standard pairs)).clusters c < 2 ^ 32 := by
    intro c hc hlt
    have he : degree_of (parse_cover G (.standard pairs)).clusters c =
        label_degree G pairs c := parse_cover_degree_of G (.standard pairs) c
    refine ⟨?_, by rw [he]; exact hlt⟩
    rw [he]
    exact label_degree_remove_first G pairs (x, c) hc
  refine ⟨?_, hmem a ha, hmem b hbm, hdeg a ha, hdeg b hbm⟩
  rw [parse_cover_community_find]
  exact hb

theorem C17_conflicting_labels_witness :
    UMap.find? (parse_cover (Graph.ctor [(1, 2)])
        (.standard [(1, 0), (1, 1), (2, 1)])).community 1 = some 1 ∧
    1 ∈ members_of (parse_cover (Graph.ctor [(1, 2)])
        (.standard [(1, 0), (1, 1), (2, 1)])).clusters 0 ∧
    1 ∈ members_of (parse_cover (Graph.ctor [(1, 2)])
        (.standard [(1, 0), (1, 1), (2, 1)])).clusters 1 ∧
    degree_of (parse_cover (Graph.ctor [(1, 2)])
        (.standard [(1, 0), (1, 1), (2, 1)])).clusters 0 =
      (Graph.degree (Graph.ctor [(1, 2)]) 1).1 +
        label_degree (Graph.ctor [(1, 2)])
          (remove_first (1, 0) [(1, 0), (1, 1), (2, 1)]) 0 ∧
    degree_of (parse_cover (Graph.ctor [(1, 2)])
        (.standard [(1, 0), (1, 1), (2, 1)])).clusters 1 =
      (Graph.degree (Graph.ctor [(1, 2)]) 1).1 +
        label_degree (Graph.ctor [(1, 2)])
          (remove_first (1, 1) [(1, 0), (1, 1), (2, 1)]) 1 :=
  have h := C17_conflicting_labels (Graph.ctor [(1, 2)]) [(1, 0), (1, 1), (2, 1)] 1 0 1 _
    (by decide) rfl rfl
  ⟨h.1, h.2.1, h.2.2.1, (h.2.2.2.1 (by decide)).1, (h.2.2.2.2 (by decide)).1⟩

/-! ## The side effect of `Graph::degree` -/

theorem UMap.upd_not_mem {V : Type} (d : V) (f : V → V) (m : UMap V) (k : Int)
    (hk : k ∉ UMap.keys m) : UMap.upd d f m k = m ++ [(k, f d)] := by
  induction m with
  | nil => rfl
  | cons hd t ih =>
    obtain ⟨k1, v⟩ := hd
    have h1 : ¬ k1 = k := by
      intro e
      apply hk
      simp [UMap.keys, e]
    have ht : k ∉ UMap.keys t := by
      intro e
      apply hk
      simp only [UMap.keys, List.map_cons, List.mem_cons]
      exact Or.inr e
    simp [UMap.upd, h1, ih ht]

theorem UMap.upd_id_mem {V : Type} (d : V) (m : UMap V) (k : Int)
    (hk : k ∈ UMap.keys m) : UMap.upd d id m k = m := by
  induction m with
  | nil => simp [UMap.keys] at hk
  | cons hd t ih =>
    obtain ⟨k1, v⟩ := hd
    by_cases h1 : k1 = k
    · simp [UMap.upd, h1]
    · have ht : k ∈ UMap.keys t := by
        have : k = k1 ∨ k ∈ UMap.keys t := by simpa [UMap.keys] using hk
        rcases this with e | e
        · exact absurd e.symm h1
        · exact e
      simp [UMap.upd, h1, ih ht]

/-- C18: on a loaded graph, `degree(x)` for a node `x` that is an endpoint of no edge
record returns 0 and appends an empty neighbour set for `x` to the adjacency map, leaving
every neighbour set, the edge list, `size()` and `order()` as they were (the map then has
`order() + 1` keys); for a node that was seen it returns the size of its neighbour set and
leaves the graph unchanged. -/
theorem C18_degree_frame (pairs : List (Int × Int)) (x : Int) :
    (x ∉ endpoints pairs →
      (Graph.degree (Graph.ctor pairs) x).1 = 0 ∧
      (Graph.degree (Graph.ctor pairs) x).2.adj_list =
        (Graph.ctor pairs).adj_list ++ [(x, [])] ∧
      (∀ y, Graph.nbrs (Graph.degree (Graph.ctor pairs) x).2 y =
        Graph.nbrs (Graph.ctor pairs) y) ∧
      Graph.get_edges (Graph.degree (Graph.ctor pairs) x).2 =
        Graph.get_edges (Graph.ctor pairs) ∧
      Graph.size (Graph.degree (Graph.ctor pairs) x).2 = Graph.size (Graph.ctor pairs) ∧
      Graph.order (Graph.degree (Graph.ctor pairs) x).2 = Graph.order (Graph.ctor pairs) ∧
      UMap.size (Graph.degree (Graph.ctor pairs) x).2.adj_list =
        Graph.order (Graph.ctor pairs) + 1) ∧
    (x ∈ endpoints pairs →
      (Graph.degree (Graph.ctor pairs) x).1 = (Graph.nbrs (Graph.ctor pairs) x).length ∧
      (Graph.degree (Graph.ctor pairs) x).2 = Graph.ctor pairs) := by
  constructor
  · intro hx
    have hk : x ∉ UMap.keys (Graph.ctor pairs).adj_list := by
      rw [Graph.ctor_mem_keys]
      exact hx
    have hnone := (UMap.find?_eq_none_iff _ _).mpr hk
    refine ⟨?_, ?_, ?_, rfl, rfl, rfl, ?_⟩
    · simp [Graph.degree, hnone]
    · simp only [Graph.degree]
      exact UMap.upd_not_mem _ _ _ _ hk
    · intro y
      simp only [Graph.nbrs, Graph.degree]
      exact nbrs_of_upd_id _ _ _
    · simp only [Graph.degree, UMap.upd_not_mem _ _ _ _ hk, UMap.size, List.length_append,
        List.length_singleton, Graph.order]
      rfl
  · intro hx
    have hk : x ∈ UMap.keys (Graph.ctor pairs).adj_list := by
      rw [Graph.ctor_mem_keys]
      exact hx
    refine ⟨rfl, ?_⟩
    simp only [Graph.degree, UMap.upd_id_mem _ _ _ hk]

theorem C18_degree_frame_witness :
    (Graph.degree (Graph.ctor [(1, 2)]) 7).2.adj_list =
      (Graph.ctor [(1, 2)]).adj_list ++ [(7, [])] ∧
    (Graph.degree (Graph.ctor [(1, 2)]) 2).2 = Graph.ctor [(1, 2)] :=
  ⟨((C18_degree_frame [(1, 2)] 7).1 (by decide)).2.1,
   ((C18_degree_frame [(1, 2)] 2).2 (by decide)).2⟩

/-! ## Clusters are never empty -/

theorem read_standard_members_ne_nil (ps : List (Int × Int)) :
    ∀ st : CoverState, (∀ p ∈ st.clusters, p.2.members ≠ []) →
      ∀ p ∈ (read_standard ps st).clusters, p.2.members ≠ [] := by
  induction ps with
  | nil => intro st h; simpa [read_standard_nil] using h
  | cons q t ih =>
    intro st h
    rw [read_standard_cons]
    apply ih
    have hins : ∀ c : Cluster, (Cluster.add_member c q.1 st.G).1.members ≠ [] := by
      intro c
      simp only [Cluster.add_member]
      exact List.ne_nil_of_mem (List.mem_insert_self q.1 c.members)
    exact UMap.forall_upd (fun c : Cluster => c.members ≠ []) _ _ _ _ (hins _)
      (fun v _ => hins v) h

theorem parse_cover_members_ne_nil (G : Graph) (cover : CoverInput) :
    ∀ p ∈ (parse_cover G cover).clusters, p.2.members ≠ [] := by
  rw [parse_cover_eq]
  exact read_standard_members_ne_nil _ _ (by simp [CoverState.init])

theorem parse_cover_community_member (G : Graph) (cover : CoverInput) (x l : Int)
    (h : UMap.find? (parse_cover G cover).community x = some l) :
    x ∈ members_of (parse_cover G cover).clusters l := by
  rw [parse_cover_community_find] at h
  rw [parse_cover_eq, read_standard_members]
  exact Or.inr (last_label_mem _ x l h)

theorem assigned_eq_nil_of_accepted (G : Graph) (cover : CoverInput) (hn : G.n = 0)
    (hlen : (assigned_nodes cover).dedup.length = G.n) : assigned cover = [] := by
  rw [hn] at hlen
  have h1 : (assigned_nodes cover).dedup = [] := List.length_eq_zero.mp hlen
  have h2 : assigned_nodes cover = [] := List.dedup_eq_nil _ |>.mp h1
  simpa [assigned_nodes] using h2

/-- C20: every cluster `read_cover` builds has at least one member and every key of the
community map is a member of the cluster stored under its label; hence a cover accepted
for a graph with `m = 0` (and so `n = 0`) leaves both maps empty, the summation loop of
`modularity` runs over no cluster, and `modularity` returns 0. -/
theorem C20_no_empty_cluster (pairs : List (Int × Int)) (cover : CoverInput) :
    (∀ p ∈ (parse_cover (Graph.ctor pairs) cover).clusters, p.2.members ≠ []) ∧
    (∀ x l, UMap.find? (parse_cover (Graph.ctor pairs) cover).community x = some l →
      x ∈ members_of (parse_cover (Graph.ctor pairs) cover).clusters l) ∧
    (∀ st, Graph.size (Graph.ctor pairs) = 0 →
      read_cover (Graph.ctor pairs) cover = .ok st →
      Graph.order (Graph.ctor pairs) = 0 ∧ st.clusters = [] ∧ st.community = [] ∧
      count_edges st.community (Graph.get_edges st.G) st.clusters = .ok [] ∧
      modularity st.G st.clusters st.community = .ok 0 ∧ run pairs cover = .ok 0) := by
  refine ⟨parse_cover_members_ne_nil _ cover, parse_cover_community_member _ cover, ?_⟩
  intro st hm hst
  have hp : pairs = [] := by
    have : pairs.length = 0 := by simpa [Graph.size, Graph.ctor_m] using hm
    exact List.length_eq_zero.mp this
  subst hp
  obtain ⟨h1, hlen⟩ := read_cover_ok _ _ _ hst
  have hnil := assigned_eq_nil_of_accepted (Graph.ctor []) cover rfl hlen
  have hstate : st = CoverState.init (Graph.ctor []) := by
    rw [h1, parse_cover_eq, hnil]
    rfl
  subst hstate
  have hmod : modularity (CoverState.init (Graph.ctor [])).G
      (CoverState.init (Graph.ctor [])).clusters
      (CoverState.init (Graph.ctor [])).community = .ok 0 := by
    simp [modularity, CoverState.init, Graph.get_edges, Graph.ctor, Graph.read_pairs,
      count_edges, sum_terms]
  refine ⟨rfl, rfl, rfl, rfl, hmod, ?_⟩
  simp only [run, read_edgelist, hst, hmod]

theorem C20_no_empty_cluster_witness :
    run [] (.alternate [[], [-1, 4]]) = .ok 0 :=
  ((C20_no_empty_cluster [] (.alternate [[], [-1, 4]])).2.2
    (parse_cover (Graph.ctor []) (.alternate [[], [-1, 4]])) rfl rfl).2.2.2.2.2

/-! ## Singleton communities -/

/-- Every label of the community map has a cluster. -/
theorem parse_cover_label_key (G : Graph) (cover : CoverInput) (x l : Int)
    (h : UMap.find? (parse_cover G cover).community x = some l) :
    l ∈ UMap.keys (parse_cover G cover).clusters := by
  rw [parse_cover_community_find] at h
  rw [parse_cover_clusters_keys]
  exact List.mem_map.mpr ⟨(x, l), last_label_mem _ x l h, rfl⟩

theorem read_standard_distinct_labels (ps : List (Int × Int)) :
    ∀ st : CoverState, (ps.map Prod.snd).Nodup →
      (∀ p ∈ ps, p.2 ∉ UMap.keys st.clusters) →
      (read_standard ps st).clusters =
        st.clusters ++ ps.map (fun p => (p.2, singleton_cluster st.G p.1)) := by
  induction ps with
  | nil => intro st _ _; simp [read_standard_nil]
  | cons p t ih =>
    intro st hnd hdis
    have hnd2 : p.2 ∉ t.map Prod.snd ∧ (t.map Prod.snd).Nodup := by
      simpa using hnd
    have hp : p.2 ∉ UMap.keys st.clusters := hdis p (List.mem_cons_self _ _)
    have hcl : (assign st p.1 p.2).clusters =
        st.clusters ++ [(p.2, singleton_cluster st.G p.1)] := by
      simp only [assign]
      rw [UMap.upd_not_mem _ _ _ _ hp]
      simp [Cluster.add_member, Cluster.new, singleton_cluster, Graph.degree, Graph.nbrs,
        nbrs_of]
    have hdis2 : ∀ q ∈ t, q.2 ∉ UMap.keys (assign st p.1 p.2).clusters := by
      intro q hq hmem
      rw [hcl] at hmem
      simp only [UMap.keys, List.map_append, List.map_cons, List.map_nil, List.mem_append,
        List.mem_singleton] at hmem
      rcases hmem with e | e
      · exact hdis q (List.mem_cons_of_mem _ hq) e
      · exact hnd2.1 (e ▸ List.mem_map_of_mem Prod.snd hq)
    have hsingle : ∀ x, singleton_cluster (assign st p.1 p.2).G x = singleton_cluster st.G x := by
      intro x
      simp only [singleton_cluster, assign_G_nbrs]
    rw [read_standard_cons, ih _ hnd2.2 hdis2, hcl]
    simp only [hsingle, List.map_cons, List.append_assoc, List.singleton_append]

theorem parse_cover_distinct_labels (G : Graph) (cover : CoverInput)
    (hinj : ((assigned cover).map Prod.snd).Nodup) :
    (parse_cover G cover).clusters =
      (assigned cover).map (fun p => (p.2, singleton_cluster G p.1)) := by
  rw [parse_cover_eq, read_standard_distinct_labels _ _ hinj (by simp [CoverState.init, UMap.keys])]
  simp [CoverState.init]

theorem intra_count_eq_zero (community : UMap Int) (es : List (Int × Int)) (l : Int)
    (h : ∀ e ∈ es, ¬ (UMap.find? community e.1 = some l ∧ UMap.find? community e.2 = some l)) :
    intra_count community es l = 0 := by
  unfold intra_count
  rw [List.countP_eq_zero]
  intro e he
  simpa using h e he

theorem neg_sum_map {α : Type} (g : α → ℚ) (l : List α) :
    - (l.map g).sum = (l.map (fun a => - g a)).sum := by
  induction l with
  | nil => simp
  | cons a t ih =>
    simp only [List.map_cons, List.sum_cons, ← ih]
    ring

/-- C13: for a graph with `m > 0` and no self-loop record, and a cover that assigns every
node of the graph exactly once, each to a label of its own, `read_cover` accepts, the
counting loop leaves every edge count at 0, and `modularity` returns minus the sum over the
nodes `i` of `(deg_i / (2m))^2`. -/
theorem C13_singleton_cover (pairs : List (Int × Int)) (cover : CoverInput)
    (_hm : 0 < Graph.size (Graph.ctor pairs)) (hloop : ∀ e ∈ pairs, e.1 ≠ e.2)
    (hnd : (assigned_nodes cover).Nodup)
    (hall : ∀ x, x ∈ assigned_nodes cover ↔ x ∈ endpoints pairs)
    (hinj : ((assigned cover).map Prod.snd).Nodup) :
    ∃ st, read_cover (Graph.ctor pairs) cover = .ok st ∧
      (∃ counted, count_edges st.community (Graph.get_edges st.G) st.clusters = .ok counted ∧
        ∀ p ∈ counted, p.2.num_edges = 0) ∧
      modularity st.G st.clusters st.community =
        .ok (singleton_value (Graph.ctor pairs) (endpoints pairs).dedup) ∧
      run pairs cover = .ok (singleton_value (Graph.ctor pairs) (endpoints pairs).dedup) := by
  have hfin : (assigned_nodes cover).toFinset = (endpoints pairs).toFinset := by
    ext x
    simp only [List.mem_toFinset]
    exact hall x
  have hlen : (assigned_nodes cover).dedup.length = (Graph.ctor pairs).n := by
    rw [← List.card_toFinset, hfin, Graph.ctor_n]
  have hread : read_cover (Graph.ctor pairs) cover =
      .ok (parse_cover (Graph.ctor pairs) cover) := by
    rw [read_cover_eq]
    simp [hlen]
  obtain ⟨_, hGm, hGe, _⟩ := parse_cover_G (Graph.ctor pairs) cover
  have hedges : Graph.get_edges (parse_cover (Graph.ctor pairs) cover).G = pairs := by
    simp only [Graph.get_edges, hGe, Graph.ctor_edges]
  have hends : ∀ e ∈ pairs, e.1 ∈ endpoints pairs ∧ e.2 ∈ endpoints pairs := by
    intro e he
    simp only [endpoints, List.mem_append, List.mem_map]
    exact ⟨Or.inl ⟨e, he, rfl⟩, Or.inr ⟨e, he, rfl⟩⟩
  -- no edge record has both endpoints under one label
  have hno : ∀ e ∈ pairs, ∀ l,
      ¬ (UMap.find? (parse_cover (Graph.ctor pairs) cover).community e.1 = some l ∧
         UMap.find? (parse_cover (Graph.ctor pairs) cover).community e.2 = some l) := by
    rintro e he l ⟨h1, h2⟩
    rw [parse_cover_community_find] at h1 h2
    have m1 := last_label_mem _ _ _ h1
    have m2 := last_label_mem _ _ _ h2
    have := List.inj_on_of_nodup_map hinj m1 m2 rfl
    exact hloop e he (Prod.mk.inj this).1
  have hcok : ∃ counted, count_edges (parse_cover (Graph.ctor pairs) cover).community pairs
      (parse_cover (Graph.ctor pairs) cover).clusters = .ok counted := by
    apply count_edges_ok
    intro e he
    simp only [parse_cover_community_keys, hall]
    exact hends e he
  obtain ⟨counted, hcount⟩ := hcok
  have hcounted : counted = (parse_cover (Graph.ctor pairs) cover).clusters := by
    have h := count_edges_eq_map _ pairs _ (parse_cover_clusters_WF _ cover)
      (fun e _ l h1 _ => parse_cover_label_key _ cover e.1 l h1) counted hcount
    rw [h]
    have hid : ∀ p ∈ (parse_cover (Graph.ctor pairs) cover).clusters,
        bump (fun l => intra_count (parse_cover (Graph.ctor pairs) cover).community pairs l) p
          = id p := by
      intro p _
      simp only [bump, intra_count_eq_zero _ pairs p.1 (fun e he => hno e he p.1)]
      rfl
    rw [List.map_congr_left hid, List.map_id]
  have hperm : (assigned_nodes cover).Perm (endpoints pairs).dedup := by
    apply (List.perm_ext_iff_of_nodup hnd (List.nodup_dedup _)).mpr
    intro x
    rw [List.mem_dedup]
    exact hall x
  have hmod : modularity (parse_cover (Graph.ctor pairs) cover).G
      (parse_cover (Graph.ctor pairs) cover).clusters
      (parse_cover (Graph.ctor pairs) cover).community =
        .ok (singleton_value (Graph.ctor pairs) (endpoints pairs).dedup) := by
    unfold modularity
    rw [hedges, hcount, hcounted]
    simp only [Except.ok.injEq]
    rw [sum_terms_eq, parse_cover_distinct_labels _ cover hinj]
    simp only [singleton_value, List.map_map]
    rw [← List.Perm.sum_eq (hperm.map
      (fun i => (((Graph.degree (Graph.ctor pairs) i).1 : ℚ) /
        (2 * ((Graph.ctor pairs).m : ℚ))) ^ 2))]
    simp only [assigned_nodes, List.map_map]
    rw [neg_sum_map]
    congr 1
    apply List.map_congr_left
    intro p _
    simp only [Function.comp, term, singleton_cluster, Cluster.get_edge_count,
      Cluster.get_degree, Graph.size, hGm, Graph.degree, Graph.nbrs, nbrs_of]
    push_cast
    ring
  refine ⟨_, hread, ⟨counted, ?_, ?_⟩, hmod, ?_⟩
  · rw [hedges]
    exact hcount
  · rw [hcounted]
    exact parse_cover_num_edges _ cover
  · simp only [run, read_edgelist, hread, hmod]

theorem C13_singleton_cover_witness :
    run [(1, 2), (2, 3)] (.standard [(1, 10), (2, 20), (3, 30)]) =
      .ok (singleton_value (Graph.ctor [(1, 2), (2, 3)])
        (endpoints [(1, 2), (2, 3)]).dedup) := by
  obtain ⟨_, _, _, _, h⟩ := C13_singleton_cover [(1, 2), (2, 3)]
    (.standard [(1, 10), (2, 20), (3, 30)]) (by decide) (by decide) (by decide)
    (by
      intro x
      simp only [assigned_nodes, assigned, endpoints]
      simp)
    (by decide)
  exact h

/-! ## Bounds on the value of `modularity` -/

theorem length_insert_le_succ (a : Int) (l : List Int) :
    (List.insert a l).length ≤ l.length + 1 := by
  by_cases h : a ∈ l
  · rw [List.length_insert_of_mem h]
    omega
  · rw [List.length_insert_of_not_mem h]

theorem length_nbrs_of_read_pair_le (acc : UMap (List Int) × List (Int × Int)) (a b : Int)
    (x : Int) :
    (nbrs_of (Graph.read_pair acc (a, b)).1 x).length ≤
      (nbrs_of acc.1 x).length + (if x = a then 1 else 0) + (if x = b then 1 else 0) := by
  simp only [nbrs_of, Graph.read_pair, UMap.find?_upd]
  by_cases c2 : x = b
  · subst c2
    by_cases c1 : x = a
    · subst c1
      simp only [if_true, Option.getD_some]
      have h1 := length_insert_le_succ x (List.insert x ((UMap.find? acc.1 x).getD []))
      have h2 := length_insert_le_succ x ((UMap.find? acc.1 x).getD [])
      omega
    · simp only [c1, if_true, if_false, Option.getD_some]
      have h1 := length_insert_le_succ a ((UMap.find? acc.1 x).getD [])
      omega
  · by_cases c1 : x = a
    · subst c1
      simp only [c2, if_true, if_false, Option.getD_some]
      have h1 := length_insert_le_succ b ((UMap.find? acc.1 x).getD [])
      omega
    · simp only [c2, c1, if_false]
      omega

/-- Over any finite set of nodes the neighbour-set sizes add up to at most twice the number
of edge records, whatever the records are. -/
theorem degree_sum_le (pairs : List (Int × Int)) :
    ∀ S : Finset Int,
      ∑ x ∈ S, (nbrs_of (Graph.read_pairs pairs).1 x).length ≤ 2 * pairs.length := by
  induction pairs using List.reverseRecOn with
  | nil =>
    intro S
    simp [Graph.read_pairs, nbrs_of, UMap.find?]
  | append_singleton l e ih =>
    intro S
    obtain ⟨a, b⟩ := e
    rw [read_pairs_append_singleton]
    have hstep : ∑ x ∈ S, (nbrs_of (Graph.read_pair (Graph.read_pairs l) (a, b)).1 x).length ≤
        ∑ x ∈ S, ((nbrs_of (Graph.read_pairs l).1 x).length + (if x = a then 1 else 0)
          + (if x = b then 1 else 0)) :=
      Finset.sum_le_sum (fun x _ => length_nbrs_of_read_pair_le _ a b x)
    have ha : (∑ x ∈ S, (if x = a then 1 else 0)) ≤ 1 := by
      rw [Finset.sum_ite_eq']
      split <;> omega
    have hb : (∑ x ∈ S, (if x = b then 1 else 0)) ≤ 1 := by
      rw [Finset.sum_ite_eq']
      split <;> omega
    have hl := ih S
    rw [Finset.sum_add_distrib, Finset.sum_add_distrib] at hstep
    simp only [List.length_append, List.length_singleton]
    omega

theorem sum_sq_le_sq_sum (l : List Nat) : (l.map (fun d => d ^ 2)).sum ≤ l.sum ^ 2 := by
  induction l with
  | nil => simp
  | cons a t ih =>
    simp only [List.map_cons, List.sum_cons]
    nlinarith [Nat.zero_le (a * t.sum)]

theorem sum_formula_split {α : Type} (a d : α → Nat) (m : ℚ) (l : List α) :
    (l.map (fun p => (a p : ℚ) / m - ((d p : ℚ) / (2 * m)) ^ 2)).sum =
      (((l.map a).sum : Nat) : ℚ) / m
        - (((l.map (fun p => d p ^ 2)).sum : Nat) : ℚ) / (4 * m ^ 2) := by
  induction l with
  | nil => simp
  | cons x t ih =>
    simp only [List.map_cons, List.sum_cons, ih]
    push_cast
    ring

theorem total_edges_map_bump (f : Int → Nat) (clusters : UMap Cluster)
    (hzero : ∀ p ∈ clusters, p.2.num_edges = 0) :
    total_edges (clusters.map (bump f)) = (clusters.map (fun p => f p.1)).sum := by
  induction clusters with
  | nil => rfl
  | cons hd t ih =>
    have h1 := hzero hd (List.mem_cons_self _ _)
    have h2 := ih (fun p hp => hzero p (List.mem_cons_of_mem _ hp))
    simp only [total_edges] at h2
    simp only [total_edges, List.map_cons, List.sum_cons, h2, bump, h1]
    omega

/-- The intra-cluster counts of the clusters of a well-formed map with zero edge counts add
up to at most the number of edge records, when the counting loop succeeds. -/
theorem intra_sum_le (community : UMap Int) (es : List (Int × Int))
    (clusters counted : UMap Cluster) (hwf : UMap.WF clusters)
    (hzero : ∀ p ∈ clusters, p.2.num_edges = 0)
    (hkeys : ∀ e ∈ es, ∀ l, UMap.find? community e.1 = some l →
      UMap.find? community e.2 = some l → l ∈ UMap.keys clusters)
    (hc : count_edges community es clusters = .ok counted) :
    (clusters.map (fun p => intra_count community es p.1)).sum ≤ es.length := by
  have h1 := count_edges_eq_map community es clusters hwf hkeys counted hc
  have h2 := total_edges_count_edges community es clusters counted hc
  rw [total_edges_zero clusters hzero, Nat.zero_add, h1,
    total_edges_map_bump _ clusters hzero] at h2
  rw [h2]
  exact same_label_count_le community es

/-- C19 as stated fails: for the edge list `1 2` the cover `1 0, 1 1, 1 2, 2 3, 2 4` is
accepted (two distinct nodes), builds five clusters of degree 1, and `modularity` returns
-5/4, which is below -1. -/
theorem C19_counterexample :
    ∃ st, read_cover (Graph.ctor [(1, 2)])
        (.standard [(1, 0), (1, 1), (1, 2), (2, 3), (2, 4)]) = .ok st ∧
      modularity st.G st.clusters st.community = .ok (-5 / 4) ∧ (-5 / 4 : ℚ) < -1 := by
  refine ⟨_, rfl, ?_, by norm_num⟩
  simp [modularity, count_edges, count_edge, UMap.at, UMap.find?, UMap.upd, UMap.set,
    Graph.ctor, Graph.read_pairs, Graph.read_pair, Graph.get_edges, Graph.size, sum_terms,
    term, Cluster.increase_edge_count, Cluster.get_edge_count, Cluster.get_degree,
    parse_cover, read_standard, assign, Graph.degree, Cluster.add_member, Cluster.new]
  norm_num

/-- C19, amended: for a loaded graph with `m > 0` and an accepted cover on which
`modularity` succeeds, the value is at most 1, and it is at least -1 when the cover lists
every node id at most once. -/
theorem C19_bounds (pairs : List (Int × Int)) (cover : CoverInput) (st : CoverState) (v : ℚ)
    (hm : 0 < Graph.size (Graph.ctor pairs))
    (hst : read_cover (Graph.ctor pairs) cover = .ok st)
    (hv : modularity st.G st.clusters st.community = .ok v) :
    v ≤ 1 ∧ ((assigned_nodes cover).Nodup → -1 ≤ v) := by
  obtain ⟨h1, _⟩ := read_cover_ok _ _ _ hst
  subst h1
  obtain ⟨_, hGm, hGe, _⟩ := parse_cover_G (Graph.ctor pairs) cover
  have hmpos : 0 < pairs.length := by
    simpa [Graph.size, Graph.ctor_m] using hm
  have hwf := parse_cover_clusters_WF (Graph.ctor pairs) cover
  have hzero := parse_cover_num_edges (Graph.ctor pairs) cover
  have hkeys : ∀ e ∈ (parse_cover (Graph.ctor pairs) cover).G.edges, ∀ l,
      UMap.find? (parse_cover (Graph.ctor pairs) cover).community e.1 = some l →
      UMap.find? (parse_cover (Graph.ctor pairs) cover).community e.2 = some l →
      l ∈ UMap.keys (parse_cover (Graph.ctor pairs) cover).clusters :=
    fun e _ l h1 _ => parse_cover_label_key _ cover e.1 l h1
  have hval := modularity_eq_formula _ _ _ v hwf hzero hkeys hv
  -- the counting loop succeeded, so the intra-cluster counts add up to at most `m`
  have hcount : ∃ counted, count_edges (parse_cover (Graph.ctor pairs) cover).community
      (parse_cover (Graph.ctor pairs) cover).G.edges
      (parse_cover (Graph.ctor pairs) cover).clusters = .ok counted := by
    unfold modularity at hv
    cases hc : count_edges (parse_cover (Graph.ctor pairs) cover).community
        (Graph.get_edges (parse_cover (Graph.ctor pairs) cover).G)
        (parse_cover (Graph.ctor pairs) cover).clusters with
    | error f => simp [hc] at hv
    | ok counted => exact ⟨counted, hc⟩
  obtain ⟨counted, hc⟩ := hcount
  have hA := intra_sum_le _ _ _ counted hwf hzero hkeys hc
  rw [hGe, Graph.ctor_edges] at hA
  rw [modularity_formula, hGe, hGm, Graph.ctor_edges, Graph.ctor_m] at hval
  have hsplit := @sum_formula_split (Int × Cluster)
    (fun p => intra_count (parse_cover (Graph.ctor pairs) cover).community pairs p.1)
    (fun p => p.2.degree) (pairs.length : ℚ) (parse_cover (Graph.ctor pairs) cover).clusters
  beta_reduce at hsplit
  rw [hsplit] at hval
  have hmq : (0 : ℚ) < (pairs.length : ℚ) := by exact_mod_cast hmpos
  have hAq : (((List.map (fun p => intra_count (parse_cover (Graph.ctor pairs) cover).community
      pairs p.1) (parse_cover (Graph.ctor pairs) cover).clusters).sum : Nat) : ℚ) ≤
      (pairs.length : ℚ) := by exact_mod_cast hA
  have hA0 : (0 : ℚ) ≤ (((List.map (fun p => intra_count
      (parse_cover (Graph.ctor pairs) cover).community
      pairs p.1) (parse_cover (Graph.ctor pairs) cover).clusters).sum : Nat) : ℚ) :=
    Nat.cast_nonneg _
  have hB0 : (0 : ℚ) ≤ (((List.map (fun p : Int × Cluster => p.2.degree ^ 2)
      (parse_cover (Graph.ctor pairs) cover).clusters).sum : Nat) : ℚ) := Nat.cast_nonneg _
  have h4 : (0 : ℚ) < 4 * (pairs.length : ℚ) ^ 2 := by positivity
  refine ⟨?_, ?_⟩
  · rw [hval]
    have t1 := (div_le_one hmq).mpr hAq
    have t2 := div_nonneg hB0 (le_of_lt h4)
    linarith
  · intro hnd
    -- the degrees of the clusters add up to at most `2m`
    have hD : total_degree (parse_cover (Graph.ctor pairs) cover).clusters ≤
        2 * pairs.length := by
      rw [parse_cover_total_degree, ← List.sum_toFinset _ hnd]
      exact degree_sum_le pairs _
    have hsq := sum_sq_le_sq_sum
      ((parse_cover (Graph.ctor pairs) cover).clusters.map (fun p => p.2.degree))
    rw [List.map_map] at hsq
    have hB : (List.map (fun p : Int × Cluster => p.2.degree ^ 2)
        (parse_cover (Graph.ctor pairs) cover).clusters).sum ≤ 4 * pairs.length ^ 2 := by
      have hD2 : (total_degree (parse_cover (Graph.ctor pairs) cover).clusters) ^ 2 ≤
          (2 * pairs.length) ^ 2 := Nat.pow_le_pow_left hD 2
      simp only [total_degree] at hD2
      have hsq2 : (List.map (fun p : Int × Cluster => p.2.degree ^ 2)
          (parse_cover (Graph.ctor pairs) cover).clusters).sum ≤
          (List.map (fun p : Int × Cluster => p.2.degree)
            (parse_cover (Graph.ctor pairs) cover).clusters).sum ^ 2 := hsq
      calc _ ≤ _ := hsq2
        _ ≤ (2 * pairs.length) ^ 2 := hD2
        _ = 4 * pairs.length ^ 2 := by ring
    have hBq : (((List.map (fun p : Int × Cluster => p.2.degree ^ 2)
        (parse_cover (Graph.ctor pairs) cover).clusters).sum : Nat) : ℚ) ≤
        4 * (pairs.length : ℚ) ^ 2 := by exact_mod_cast hB
    rw [hval]
    have t1 := (div_le_one h4).mpr hBq
    have t2 := div_nonneg hA0 (le_of_lt hmq)
    linarith

theorem C19_bounds_witness :
    (3 / 8 : ℚ) ≤ 1 ∧
    ((assigned_nodes (.standard [(1, 7), (2, 7), (3, 7), (4, 8), (5, 8)])).Nodup →
      -1 ≤ (3 / 8 : ℚ)) :=
  C19_bounds [(1, 2), (2, 3), (3, 1), (4, 5)]
    (.standard [(1, 7), (2, 7), (3, 7), (4, 8), (5, 8)])
    (parse_cover (Graph.ctor [(1, 2), (2, 3), (3, 1), (4, 5)])
      (.standard [(1, 7), (2, 7), (3, 7), (4, 8), (5, 8)])) (3 / 8)
    (by decide) rfl
    (by
      simp [modularity, count_edges, count_edge, UMap.at, UMap.find?, UMap.upd, UMap.set,
        Graph.ctor, Graph.read_pairs, Graph.read_pair, Graph.get_edges, Graph.size,
        sum_terms, term, Cluster.increase_edge_count, Cluster.get_edge_count,
        Cluster.get_degree, parse_cover, read_standard, assign, Graph.degree,
        Cluster.add_member, Cluster.new]
      norm_num)

/-! ## The command line -/

theorem parse_arg_verbose (flags : Flags) (arg : String) :
    (parse_arg flags arg).verbose = (flags.verbose || has_flag 'v' arg) := by
  unfold parse_arg has_flag
  split
  · rename_i h; simp [h]
  · rename_i h; simp [h]
  · rename_i h1 h2
    split
    · rename_i x t h
      have hx : ¬ x = 'v' := fun e => h1 t (by rw [h, e])
      simp [hx]
    · simp

theorem parse_arg_alternate (flags : Flags) (arg : String) :
    (parse_arg flags arg).alternate_cover = (flags.alternate_cover || has_flag 'a' arg) := by
  unfold parse_arg has_flag
  split
  · rename_i h; simp [h]
  · rename_i h; simp [h]
  · rename_i h1 h2
    split
    · rename_i x t h
      have hx : ¬ x = 'a' := fun e => h2 t (by rw [h, e])
      simp [hx]
    · simp

theorem foldl_parse_arg (args : List String) :
    ∀ flags : Flags,
      (args.foldl parse_arg flags).verbose = (flags.verbose || args.any (has_flag 'v')) ∧
      (args.foldl parse_arg flags).alternate_cover =
        (flags.alternate_cover || args.any (has_flag 'a')) := by
  induction args with
  | nil => intro flags; simp
  | cons a t ih =>
    intro flags
    obtain ⟨h1, h2⟩ := ih (parse_arg flags a)
    simp only [List.foldl_cons, h1, h2, parse_arg_verbose, parse_arg_alternate, List.any_cons,
      Bool.or_assoc]
    exact ⟨trivial, trivial⟩

/-- The flags `parse_args` sets are those of the flag arguments present after the program
name. -/
theorem parse_args_eq (prog : String) (args : List String) :
    parse_args (prog :: args) =
      { verbose := args.any (has_flag 'v'), alternate_cover := args.any (has_flag 'a') } := by
  obtain ⟨h1, h2⟩ := foldl_parse_arg args { verbose := false, alternate_cover := false }
  have hv : (parse_args (prog :: args)).verbose = args.any (has_flag 'v') := by
    simpa [parse_args] using h1
  have ha : (parse_args (prog :: args)).alternate_cover = args.any (has_flag 'a') := by
    simpa [parse_args] using h2
  cases hp : parse_args (prog :: args) with
  | mk v a =>
    rw [hp] at hv ha
    simp only at hv ha
    rw [hv, ha]

theorem any_perm {α : Type} (p : α → Bool) (l1 l2 : List α) (h : l1.Perm l2) :
    l1.any p = l2.any p := by
  rw [Bool.eq_iff_iff]
  simp only [List.any_eq_true]
  constructor
  · rintro ⟨x, hx, hp⟩
    exact ⟨x, h.mem_iff.mp hx, hp⟩
  · rintro ⟨x, hx, hp⟩
    exact ⟨x, h.mem_iff.mpr hx, hp⟩

/-- C12 as stated fails: with the flag `-a` before the two paths the program tries to open
`-a` as the edge list, and with the flag between the paths it tries to open it as the
cover, although the first and second non-flag arguments name files that exist. -/
theorem C12_counterexample :
    (main two_files ["modularity", "-a", "edges.txt", "cover.txt"] = .file_missing "-a" ∧
      non_flag_args ["modularity", "-a", "edges.txt", "cover.txt"] =
        ["edges.txt", "cover.txt"]) ∧
    (main two_files ["modularity", "edges.txt", "-a", "cover.txt"] = .file_missing "-a" ∧
      non_flag_args ["modularity", "edges.txt", "-a", "cover.txt"] =
        ["edges.txt", "cover.txt"]) ∧
    (two_files "edges.txt").isSome = true ∧ (two_files "cover.txt").isSome = true := by
  decide

/-- C12, amended: the flags are set according to the flag arguments `-v` and `-a` present
after the program name, independently of their positions, and the program loads the graph
from `argv[1]` and the cover from `argv[2]`; when these two arguments do not start with `-`
they are the first and second non-flag arguments. -/
theorem C12_command_line (fs : String → Option FileContent) (prog e c : String)
    (rest : List String) :
    (parse_args (prog :: e :: c :: rest)).verbose = (e :: c :: rest).any (has_flag 'v') ∧
    (parse_args (prog :: e :: c :: rest)).alternate_cover =
      (e :: c :: rest).any (has_flag 'a') ∧
    (∀ args, (e :: c :: rest).Perm args →
      parse_args (prog :: args) = parse_args (prog :: e :: c :: rest)) ∧
    (fs e = none → main fs (prog :: e :: c :: rest) = .file_missing e) ∧
    (∀ ef, fs e = some ef → fs c = none →
      main fs (prog :: e :: c :: rest) = .file_missing c) ∧
    (∀ ef cf, fs e = some ef → fs c = some cf →
      main fs (prog :: e :: c :: rest) = report (parse_args (prog :: e :: c :: rest)) ef cf) ∧
    (e.data.head? ≠ some '-' → c.data.head? ≠ some '-' →
      (non_flag_args (prog :: e :: c :: rest)).take 2 = [e, c]) := by
  refine ⟨?_, ?_, ?_, ?_, ?_, ?_, ?_⟩
  · rw [parse_args_eq]
  · rw [parse_args_eq]
  · intro args hperm
    rw [parse_args_eq, parse_args_eq, any_perm _ _ _ hperm, any_perm _ _ _ hperm]
  · intro h
    simp [main, h]
  · intro ef h1 h2
    simp [main, h1, h2]
  · intro ef cf h1 h2
    simp [main, h1, h2]
  · intro h1 h2
    simp [non_flag_args, List.filter_cons, h1, h2]

theorem C12_command_line_witness :
    main two_files ["modularity", "edges.txt", "cover.txt", "-v"] =
      report (parse_args ["modularity", "edges.txt", "cover.txt", "-v"])
        { pairs := [(1, 2)], lines := [[1, 2]] }
        { pairs := [(1, 0), (2, 0)], lines := [[1, 0], [2, 0]] } :=
  (C12_command_line two_files "modularity" "edges.txt" "cover.txt" ["-v"]).2.2.2.2.2.1
    _ _ rfl rfl

/-! ## Calling `modularity` twice -/

theorem getD_append_length (pre : Heap) (c d : UMap Cluster) :
    (pre ++ [c]).getD pre.length d = c := by
  induction pre with
  | nil => rfl
  | cons x t ih => simp

theorem set_append_length (pre : Heap) (c c1 : UMap Cluster) :
    (pre ++ [c]).set pre.length c1 = pre ++ [c1] := by
  induction pre with
  | nil => rfl
  | cons x t ih => simp

/-- The loop run on the object behind the others writes that object only, and does to it
what the loop of `modularity` does to a map. -/
theorem count_edges_at_append (community : UMap Int) (pre : Heap) (es : List (Int × Int)) :
    ∀ c : UMap Cluster, count_edges_at community pre.length es (pre ++ [c]) =
      match count_edges community es c with
      | .error f => .error f
      | .ok c1 => .ok (pre ++ [c1]) := by
  induction es with
  | nil => intro c; rfl
  | cons e t ih =>
    intro c
    simp only [count_edges_at, count_edge_at, count_edges, getD_append_length]
    cases h : count_edge community c e with
    | error f => rfl
    | ok c1 =>
      simp only [set_append_length]
      exact ih c1

theorem modularity_at_append (G : Graph) (community : UMap Int) (pre : Heap)
    (c : UMap Cluster) :
    modularity_at G community pre.length (pre ++ [c]) =
      match count_edges community (Graph.get_edges G) c with
      | .error f => .error f
      | .ok c1 => .ok (sum_terms (Graph.size G : Int) c1, pre ++ [c1]) := by
  simp only [modularity_at, count_edges_at_append]
  cases h : count_edges community (Graph.get_edges G) c with
  | error f => rfl
  | ok c1 => simp only [getD_append_length]

/-- The call returns what `modularity` computes from the argument and gives back the
objects that were alive before it, unchanged. -/
theorem call_modularity_eq (G : Graph) (community : UMap Int) (a : Nat) (heap : Heap) :
    call_modularity G community a heap =
      match modularity G (heap.getD a []) community with
      | .error f => .error f
      | .ok v => .ok (v, heap) := by
  simp only [call_modularity, modularity_at_append, modularity]
  cases h : count_edges community (Graph.get_edges G) (heap.getD a []) with
  | error f => rfl
  | ok c1 => simp

theorem intra_sum_eq (community : UMap Int) (es : List (Int × Int))
    (clusters counted : UMap Cluster) (hwf : UMap.WF clusters)
    (hzero : ∀ p ∈ clusters, p.2.num_edges = 0)
    (hkeys : ∀ e ∈ es, ∀ l, UMap.find? community e.1 = some l →
      UMap.find? community e.2 = some l → l ∈ UMap.keys clusters)
    (hc : count_edges community es clusters = .ok counted) :
    (clusters.map (fun p => intra_count community es p.1)).sum =
      same_label_count community es := by
  have h1 := count_edges_eq_map community es clusters hwf hkeys counted hc
  have h2 := total_edges_count_edges community es clusters counted hc
  rw [total_edges_zero clusters hzero, Nat.zero_add, h1,
    total_edges_map_bump _ clusters hzero] at h2
  exact h2

theorem sum_terms_bump_twice (m : Int) (f : Int → Nat) (clusters : UMap Cluster) :
    sum_terms m ((clusters.map (bump f)).map (bump f)) =
      sum_terms m (clusters.map (bump f)) +
        (((clusters.map (fun p => f p.1)).sum : Nat) : ℚ) / (m : ℚ) := by
  rw [sum_terms_eq, sum_terms_eq]
  induction clusters with
  | nil => simp
  | cons hd t ih =>
    simp only [List.map_cons, List.sum_cons, ih]
    simp only [term, bump, Cluster.get_edge_count, Cluster.get_degree]
    push_cast
    ring

/-- What passing the map by reference would do: with the parameter being the caller's
object itself, the second call starts from the counts of the first and returns a value
that is larger by the share of the edge records whose endpoints carry the same label. -/
theorem by_reference_second_call (G : Graph) (clusters : UMap Cluster) (community : UMap Int)
    (hwf : UMap.WF clusters) (hzero : ∀ p ∈ clusters, p.2.num_edges = 0)
    (hkeys : ∀ e ∈ G.edges, ∀ l, UMap.find? community e.1 = some l →
      UMap.find? community e.2 = some l → l ∈ UMap.keys clusters)
    (v1 v2 : ℚ) (heap1 heap2 : Heap)
    (h1 : modularity_at G community 0 [clusters] = .ok (v1, heap1))
    (h2 : modularity_at G community 0 heap1 = .ok (v2, heap2)) :
    v2 = v1 + (same_label_count community G.edges : ℚ) / ((Graph.size G : Int) : ℚ) := by
  have e1 := modularity_at_append G community [] clusters
  simp only [List.nil_append, List.length_nil] at e1
  rw [e1] at h1
  cases hc : count_edges community (Graph.get_edges G) clusters with
  | error f => simp [hc] at h1
  | ok counted =>
    simp only [hc, Except.ok.injEq, Prod.mk.injEq] at h1
    obtain ⟨hv1, hh1⟩ := h1
    subst hh1
    have e2 := modularity_at_append G community [] counted
    simp only [List.nil_append, List.length_nil] at e2
    rw [e2] at h2
    cases hc2 : count_edges community (Graph.get_edges G) counted with
    | error f => simp [hc2] at h2
    | ok counted2 =>
      simp only [hc2, Except.ok.injEq, Prod.mk.injEq] at h2
      have hmap := count_edges_eq_map community _ clusters hwf hkeys counted hc
      have hwf1 : UMap.WF counted := by
        rw [hmap]
        unfold UMap.WF
        rw [keys_map_bump]
        exact hwf
      have hkeys1 : ∀ e ∈ Graph.get_edges G, ∀ l, UMap.find? community e.1 = some l →
          UMap.find? community e.2 = some l → l ∈ UMap.keys counted := by
        intro e he l ha hb
        rw [hmap, keys_map_bump]
        exact hkeys e he l ha hb
      have hmap2 := count_edges_eq_map community _ counted hwf1 hkeys1 counted2 hc2
      have hsum := intra_sum_eq community _ clusters counted hwf hzero hkeys hc
      simp only [Graph.get_edges] at hmap hmap2 hsum
      rw [← h2.1, ← hv1, hmap2, hmap, sum_terms_bump_twice, hsum]

/-- C14: the call `modularity(clusters, community)` on the pair `read_cover` returned
gives back every object that was alive before it unchanged, the caller's cluster map among
them with its edge counts still 0, although the copy the call worked on has received the
counts; a second call in succession therefore returns the same value, the one `modularity`
computes from the pair. -/
theorem C14_second_call (pairs : List (Int × Int)) (cover : CoverInput) (st : CoverState)
    (heap heap1 : Heap) (a : Nat) (v : ℚ)
    (hst : read_cover (Graph.ctor pairs) cover = .ok st)
    (ha : heap.getD a [] = st.clusters)
    (h1 : call_modularity st.G st.community a heap = .ok (v, heap1)) :
    heap1 = heap ∧ (∀ p ∈ heap1.getD a [], p.2.num_edges = 0) ∧
    call_modularity st.G st.community a heap1 = .ok (v, heap1) ∧
    modularity st.G st.clusters st.community = .ok v ∧
    ∃ counted, modularity_at st.G st.community heap.length (heap ++ [heap.getD a []]) =
        .ok (v, heap ++ [counted]) ∧
      total_edges counted = same_label_count st.community (Graph.get_edges st.G) := by
  have hzero : ∀ p ∈ st.clusters, p.2.num_edges = 0 := by
    obtain ⟨hp, _⟩ := read_cover_ok _ _ _ hst
    rw [hp]
    exact parse_cover_num_edges _ cover
  have hat := modularity_at_append st.G st.community heap (heap.getD a [])
  have h1' := h1
  unfold call_modularity at h1'
  cases hc : count_edges st.community (Graph.get_edges st.G) (heap.getD a []) with
  | error f =>
    rw [hat, hc] at h1'
    exact absurd h1' (by simp)
  | ok counted =>
    rw [hat, hc] at h1'
    simp only [Except.ok.injEq, Prod.mk.injEq] at h1'
    obtain ⟨hv, hh⟩ := h1'
    have hheap : heap1 = heap := by
      rw [← hh]
      simp
    subst hheap
    refine ⟨rfl, ?_, h1, ?_, counted, ?_, ?_⟩
    · rw [ha]
      exact hzero
    · rw [ha] at hc
      simp only [modularity, hc, hv]
    · rw [hat, hc]
      simp only [hv]
    · rw [ha] at hc
      have ht := total_edges_count_edges st.community _ st.clusters counted hc
      rw [total_edges_zero st.clusters hzero, Nat.zero_add] at ht
      exact ht

theorem C14_second_call_witness :
    call_modularity (parse_cover (Graph.ctor [(1, 2)]) (.standard [(1, 0), (2, 0)])).G
      (parse_cover (Graph.ctor [(1, 2)]) (.standard [(1, 0), (2, 0)])).community 0
      [(parse_cover (Graph.ctor [(1, 2)]) (.standard [(1, 0), (2, 0)])).clusters] =
      .ok (0, [(parse_cover (Graph.ctor [(1, 2)]) (.standard [(1, 0), (2, 0)])).clusters]) := by
  have h : call_modularity (parse_cover (Graph.ctor [(1, 2)]) (.standard [(1, 0), (2, 0)])).G
      (parse_cover (Graph.ctor [(1, 2)]) (.standard [(1, 0), (2, 0)])).community 0
      [(parse_cover (Graph.ctor [(1, 2)]) (.standard [(1, 0), (2, 0)])).clusters] =
      .ok (0, [(parse_cover (Graph.ctor [(1, 2)]) (.standard [(1, 0), (2, 0)])).clusters]) := by
    simp [call_modularity, modularity_at, count_edges_at, count_edge_at, count_edges,
      count_edge, UMap.at, UMap.find?,
      UMap.upd, UMap.set, Graph.ctor, Graph.read_pairs, Graph.read_pair, Graph.get_edges,
      Graph.size, sum_terms, term, Cluster.increase_edge_count, Cluster.get_edge_count,
      Cluster.get_degree, parse_cover, read_standard, assign, Graph.degree,
      Cluster.add_member, Cluster.new]
  exact (C14_second_call [(1, 2)] (.standard [(1, 0), (2, 0)])
    (parse_cover (Graph.ctor [(1, 2)]) (.standard [(1, 0), (2, 0)]))
    [(parse_cover (Graph.ctor [(1, 2)]) (.standard [(1, 0), (2, 0)])).clusters] _ 0 0
    rfl rfl h).2.2.1

end Modularity
